import Mathlib

/-!
Verification of the leaderboard ranking algorithms
(src/Leaderboard.cpp, src/PlayerStream.cpp).

The C++ code is shallowly embedded: vectors of players become lists,
in-place mutation becomes explicit state passing (functions that mutate a
vector return the final vector alongside the result), and the standard
library heap and sort calls are modelled by the sift-down based algorithms
the library implements.  Machine integers (int, size_t) stay within range
throughout the program, so they are modelled as Nat, with Int used for the
signed index arithmetic of the quickselect helpers where intermediate
values can be negative.
-/

/-- Modelled from the spec: the Player value type itself is declared in a
header that is not part of the sources (only Leaderboard.cpp and
PlayerStream.cpp are given).  Per the spec's data model, an entity has a
name (a character string, modelled as its character list) and an integer
level/score (non-negative in all observed data, and stored into size_t
cutoff values by the code, hence modelled as Nat). -/
structure Player where
  name_ : List Char
  level_ : Nat
deriving DecidableEq, Repr

instance : Inhabited Player := ⟨⟨[], 0⟩⟩

/-- Lexicographic strict comparison of names (character lists), the order
of std::string operator<. -/
def nameLt : List Char → List Char → Bool
  | [], [] => false
  | [], _ :: _ => true
  | _ :: _, [] => false
  | a :: as, b :: bs => if a < b then true else if b < a then false else nameLt as bs

/-- Modelled from the spec: Player operator< is declared in the missing
header; per the spec it is a total order with primary key the score
ascending and ties broken by name for reproducibility. -/
def Player.ltB (p q : Player) : Bool :=
  if p.level_ < q.level_ then true
  else if q.level_ < p.level_ then false
  else nameLt p.name_ q.name_

/-- The companion non-strict comparison, operator<= (equivalently the
negation of the flipped strict one, as for any total order). -/
def Player.leB (p q : Player) : Bool := !(Player.ltB q p)

theorem nameLt_irrefl (a : List Char) : nameLt a a = false := by
  induction a with
  | nil => rfl
  | cons c cs ih => simp [nameLt, ih]

theorem nameLt_asymm (a b : List Char) (h : nameLt a b = true) : nameLt b a = false := by
  induction a generalizing b with
  | nil => cases b with
    | nil => simp [nameLt] at h
    | cons y ys => simp [nameLt]
  | cons x xs ih =>
    cases b with
    | nil => simp [nameLt] at h
    | cons y ys =>
      simp only [nameLt] at h ⊢
      by_cases hxy : x < y
      · have : ¬ y < x := lt_asymm hxy
        simp [hxy, this]
      · by_cases hyx : y < x
        · simp [hxy, hyx] at h
        · simp only [hxy, hyx, if_false] at h
          simp [hxy, hyx, ih ys h]

theorem nameLt_trans (a b c : List Char) (hab : nameLt a b = true)
    (hbc : nameLt b c = true) : nameLt a c = true := by
  induction a generalizing b c with
  | nil =>
    cases c with
    | nil =>
      cases b with
      | nil => exact hab
      | cons y ys => simp [nameLt] at hbc
    | cons z zs => simp [nameLt]
  | cons x xs ih =>
    cases b with
    | nil => simp [nameLt] at hab
    | cons y ys =>
      cases c with
      | nil => simp [nameLt] at hbc
      | cons z zs =>
        simp only [nameLt] at hab hbc ⊢
        rcases lt_trichotomy x y with hxy | hxy | hxy
        · rcases lt_trichotomy y z with hyz | hyz | hyz
          · simp [lt_trans hxy hyz]
          · subst hyz; simp [hxy]
          · simp [lt_asymm hyz, hyz] at hbc
        · subst hxy
          simp only [lt_irrefl, if_false] at hab
          rcases lt_trichotomy x z with hxz | hxz | hxz
          · simp [hxz]
          · subst hxz
            simp only [lt_irrefl, if_false] at hbc ⊢
            exact ih ys zs hab hbc
          · simp [lt_asymm hxz, hxz] at hbc
        · simp [lt_asymm hxy, hxy] at hab

theorem nameLt_connex (a b : List Char) (hab : nameLt a b = false)
    (hba : nameLt b a = false) : a = b := by
  induction a generalizing b with
  | nil => cases b with
    | nil => rfl
    | cons y ys => simp [nameLt] at hab
  | cons x xs ih =>
    cases b with
    | nil => simp [nameLt] at hba
    | cons y ys =>
      simp only [nameLt] at hab hba
      by_cases hxy : x < y
      · simp [hxy] at hab
      · by_cases hyx : y < x
        · simp [hxy, hyx] at hba
        · have hxy' : x = y := le_antisymm (not_lt.mp hyx) (not_lt.mp hxy)
          subst hxy'
          simp only [hxy, lt_irrefl, if_false] at hab hba
          rw [ih ys hab hba]

theorem Player.ltB_iff {p q : Player} : Player.ltB p q = true ↔
    (p.level_ < q.level_ ∨ (p.level_ = q.level_ ∧ nameLt p.name_ q.name_ = true)) := by
  unfold Player.ltB
  split_ifs with h1 h2
  · simp [h1]
  · simp only [false_iff]
    push_neg
    exact ⟨by omega, fun h => absurd h (by omega)⟩
  · have : p.level_ = q.level_ := by omega
    simp [this]

theorem Player.ltB_irrefl (p : Player) : Player.ltB p p = false := by
  rw [Bool.eq_false_iff]
  intro h
  rcases Player.ltB_iff.mp h with h1 | ⟨_, h2⟩
  · omega
  · rw [nameLt_irrefl] at h2; exact Bool.false_ne_true h2

theorem Player.ltB_asymm {p q : Player} (h : Player.ltB p q = true) :
    Player.ltB q p = false := by
  rw [Bool.eq_false_iff]
  intro h2
  rcases Player.ltB_iff.mp h with h1 | ⟨e1, hn1⟩ <;>
    rcases Player.ltB_iff.mp h2 with h3 | ⟨e3, hn3⟩
  · omega
  · omega
  · omega
  · rw [nameLt_asymm _ _ hn1] at hn3; exact Bool.false_ne_true hn3

theorem Player.ltB_trans {p q r : Player} (hpq : Player.ltB p q = true)
    (hqr : Player.ltB q r = true) : Player.ltB p r = true := by
  rw [Player.ltB_iff] at hpq hqr ⊢
  rcases hpq with h1 | ⟨e1, hn1⟩ <;> rcases hqr with h2 | ⟨e2, hn2⟩
  · exact Or.inl (by omega)
  · exact Or.inl (by omega)
  · exact Or.inl (by omega)
  · exact Or.inr ⟨by omega, nameLt_trans _ _ _ hn1 hn2⟩

theorem Player.ltB_level {p q : Player} (h : Player.ltB p q = false) :
    q.level_ ≤ p.level_ := by
  by_contra hc
  rw [Bool.eq_false_iff] at h
  exact h (Player.ltB_iff.mpr (Or.inl (by omega)))

theorem Player.ltB_connex {p q : Player} (hpq : Player.ltB p q = false)
    (hqp : Player.ltB q p = false) : p = q := by
  have e : p.level_ = q.level_ := by
    have h1 := Player.ltB_level hpq
    have h2 := Player.ltB_level hqp
    omega
  have hn : p.name_ = q.name_ := by
    have hn1 : nameLt p.name_ q.name_ = false := by
      rw [Bool.eq_false_iff]
      intro hc
      rw [Bool.eq_false_iff] at hpq
      exact hpq (Player.ltB_iff.mpr (Or.inr ⟨e, hc⟩))
    have hn2 : nameLt q.name_ p.name_ = false := by
      rw [Bool.eq_false_iff]
      intro hc
      rw [Bool.eq_false_iff] at hqp
      exact hqp (Player.ltB_iff.mpr (Or.inr ⟨e.symm, hc⟩))
    exact nameLt_connex _ _ hn1 hn2
  cases p; cases q; simp_all

theorem Player.ltB_trichotomy {p q : Player} (h : Player.ltB p q = false) :
    Player.ltB q p = true ∨ p = q := by
  cases h2 : Player.ltB q p with
  | true => exact Or.inl rfl
  | false => exact Or.inr (Player.ltB_connex h h2)

theorem Player.ltB_negtrans {p q r : Player} (hpq : Player.ltB p q = false)
    (hqr : Player.ltB q r = false) : Player.ltB p r = false := by
  rw [Bool.eq_false_iff]
  intro h
  rcases Player.ltB_trichotomy hpq with hqp | rfl
  · have := Player.ltB_trans hqp h
    rw [hqr] at this
    exact Bool.false_ne_true this
  · rw [h] at hqr
    simp at hqr

theorem Player.leB_iff_ltB {p q : Player} :
    Player.leB p q = true ↔ Player.ltB q p = false := by
  unfold Player.leB
  cases Player.ltB q p <;> simp

/-- The non-strict comparison as a relation, used to state sortedness under
Player operator< (the comparison std::sort uses). -/
def pLe (p q : Player) : Prop := Player.leB p q = true

instance : DecidableRel pLe := fun p q => inferInstanceAs (Decidable (_ = true))

instance : IsTotal Player pLe := by
  constructor
  intro a b
  rw [pLe, pLe, Player.leB_iff_ltB, Player.leB_iff_ltB]
  cases h : Player.ltB b a with
  | false => exact Or.inl rfl
  | true => exact Or.inr (Player.ltB_asymm h)

instance : IsTrans Player pLe := by
  constructor
  intro a b c hab hbc
  rw [pLe, Player.leB_iff_ltB] at hab hbc ⊢
  exact Player.ltB_negtrans hbc hab

instance : IsAntisymm Player pLe := by
  constructor
  intro a b hab hba
  rw [pLe, Player.leB_iff_ltB] at hab hba
  exact Player.ltB_connex hba hab

/-- Non-decreasing scores, the relation of claim C6 (sorted "by score"). -/
def levelLe (p q : Player) : Prop := p.level_ ≤ q.level_

theorem pLe_levelLe {p q : Player} (h : pLe p q) : levelLe p q := by
  rw [pLe, Player.leB_iff_ltB] at h
  exact Player.ltB_level h

/-- The model of std::sort on players: a sorted (by operator<) permutation
of the input.  Since operator< is a total order with antisymmetric
companion, every correct sort produces this exact list. -/
def sortP (l : List Player) : List Player := List.insertionSort pLe l

theorem sortP_perm (l : List Player) : (sortP l).Perm l := List.perm_insertionSort pLe l

theorem sortP_sorted (l : List Player) : List.Sorted pLe (sortP l) :=
  List.sorted_insertionSort pLe l

theorem sortP_length (l : List Player) : (sortP l).length = l.length :=
  (sortP_perm l).length_eq

/-- The RankingResult record.  The elapsed_ wall-clock field is a
diagnostic with no correctness content (per the spec) and has no shallow
embedding; the cutoffs_ unordered_map is modelled as the list of key-value
pairs in insertion order (all keys inserted are distinct and increasing,
so the map content is exactly this association list). -/
structure RankingResult where
  top_ : List Player
  cutoffs_ : List (Nat × Nat)
deriving Repr, DecidableEq

/-- Indexing shorthand: vector indexing players[i] (always in bounds in
the source; out-of-range reads return the default player). -/
def nth (l : List Player) (i : Nat) : Player := l.getD i default

/-- Vector element swap, std::swap(players[i], players[j]). -/
def swapL (l : List Player) (i j : Nat) : List Player :=
  (l.set i (nth l j)).set j (nth l i)

theorem nth_eq_getElem {l : List Player} {i : Nat} (h : i < l.length) :
    nth l i = l[i] := List.getD_eq_getElem l default h

theorem length_swapL (l : List Player) (i j : Nat) :
    (swapL l i j).length = l.length := by
  simp [swapL]

theorem swapL_perm (l : List Player) {i j : Nat} (hi : i < l.length)
    (hj : j < l.length) : (swapL l i j).Perm l := by
  rw [List.perm_iff_count]
  intro a
  unfold swapL
  rw [nth_eq_getElem hi, nth_eq_getElem hj]
  have hj' : j < (l.set i l[j]).length := by simpa using hj
  rw [List.count_set _ _ _ _ hj', List.count_set _ _ _ _ hi]
  rcases eq_or_ne i j with rfl | hij
  · rw [List.getElem_set]
    by_cases hA : l[i] = a
    · have h1 : 1 ≤ List.count a l := List.one_le_count_iff.mpr (hA ▸ List.getElem_mem hi)
      simp [hA]
      omega
    · simp [hA]
  · rw [List.getElem_set_ne hij]
    by_cases hA : l[i] = a
    · have h1 : 1 ≤ List.count a l := List.one_le_count_iff.mpr (hA ▸ List.getElem_mem hi)
      by_cases hB : l[j] = a
      · simp [hA, hB]
        omega
      · simp [hA, hB]
        omega
    · by_cases hB : l[j] = a
      · have h1 : 1 ≤ List.count a l := List.one_le_count_iff.mpr (hB ▸ List.getElem_mem hj)
        simp [hA, hB]
      · simp [hA, hB]

theorem nth_swapL_left {l : List Player} {i j : Nat} (hi : i < l.length)
    (hij : i ≠ j) : nth (swapL l i j) i = nth l j := by
  have hi' : i < (swapL l i j).length := by rw [length_swapL]; exact hi
  rw [nth_eq_getElem hi']
  unfold swapL
  rw [List.getElem_set_ne (Ne.symm hij), List.getElem_set]
  simp

theorem nth_swapL_right {l : List Player} {i j : Nat} (hj : j < l.length) :
    nth (swapL l i j) j = nth l i := by
  have hj' : j < (swapL l i j).length := by rw [length_swapL]; exact hj
  rw [nth_eq_getElem hj']
  unfold swapL
  rw [List.getElem_set]
  simp

theorem nth_swapL_other {l : List Player} {i j m : Nat} (hmi : m ≠ i)
    (hmj : m ≠ j) : nth (swapL l i j) m = nth l m := by
  by_cases hm : m < l.length
  · have hm' : m < (swapL l i j).length := by rw [length_swapL]; exact hm
    rw [nth_eq_getElem hm', nth_eq_getElem hm]
    unfold swapL
    rw [List.getElem_set_ne (Ne.symm hmj), List.getElem_set_ne (Ne.symm hmi)]
  · have hm' : ¬ m < (swapL l i j).length := by rw [length_swapL]; exact hm
    unfold nth
    rw [List.getD_eq_default _ _ (by omega), List.getD_eq_default _ _ (by omega)]

theorem nth_set_ne {l : List Player} {i m : Nat} (h : m ≠ i) (a : Player) :
    nth (l.set i a) m = nth l m := by
  by_cases hm : m < l.length
  · have hm' : m < (l.set i a).length := by simpa using hm
    rw [nth_eq_getElem hm', nth_eq_getElem hm, List.getElem_set_ne (Ne.symm h)]
  · unfold nth
    rw [List.getD_eq_default _ _ (by simpa using hm), List.getD_eq_default _ _ (by omega)]

theorem nth_set_self {l : List Player} {i : Nat} (h : i < l.length) (a : Player) :
    nth (l.set i a) i = a := by
  have h' : i < (l.set i a).length := by simpa using h
  rw [nth_eq_getElem h', List.getElem_set]
  simp

theorem nth_take {l : List Player} {k c : Nat} (h : c < k) :
    nth (l.take k) c = nth l c := by
  by_cases hc : c < l.length
  · have hc' : c < (l.take k).length := by simp [List.length_take]; omega
    rw [nth_eq_getElem hc', nth_eq_getElem hc, List.getElem_take]
  · unfold nth
    rw [List.getD_eq_default _ _ (by simp [List.length_take]; omega),
      List.getD_eq_default _ _ (by omega)]

/-- Splitting lemma for sorting: if a list is (as a multiset) a
concatenation of a block of low elements and a block of high elements,
sorting it sorts the two blocks independently and concatenates. -/
theorem insertionSort_split {α : Type} (r : α → α → Prop) [DecidableRel r]
    [IsTotal α r] [IsTrans α r] [IsAntisymm α r] {l a b : List α}
    (hp : l.Perm (a ++ b)) (hdom : ∀ x ∈ a, ∀ y ∈ b, r x y) :
    List.insertionSort r l = List.insertionSort r a ++ List.insertionSort r b := by
  apply List.eq_of_perm_of_sorted (r := r)
  · exact (List.perm_insertionSort r l).trans
      (hp.trans (((List.perm_insertionSort r a).symm).append
        ((List.perm_insertionSort r b).symm)))
  · exact List.sorted_insertionSort r l
  · rw [List.Sorted, List.pairwise_append]
    refine ⟨List.sorted_insertionSort r a, List.sorted_insertionSort r b, ?_⟩
    intro x hx y hy
    exact hdom x ((List.mem_insertionSort r).mp hx) y ((List.mem_insertionSort r).mp hy)

/-- The max-heap comparison: heapRank builds a heap with the default
std::less comparator, whose sift operations promote the larger child;
this is ltB with the arguments flipped. -/
def Player.gtB (p q : Player) : Bool := Player.ltB q p

theorem Player.gtB_asymm {p q : Player} (h : Player.gtB p q = true) :
    Player.gtB q p = false := Player.ltB_asymm h

theorem Player.gtB_trans {p q r : Player} (hpq : Player.gtB p q = true)
    (hqr : Player.gtB q r = true) : Player.gtB p r = true := Player.ltB_trans hqr hpq

theorem Player.gtB_negtrans {p q r : Player} (hpq : Player.gtB p q = false)
    (hqr : Player.gtB q r = false) : Player.gtB p r = false := Player.ltB_negtrans hqr hpq

/-- CmpOk lt bundles the three order facts the heap lemmas need about a
strict comparison: asymmetry, transitivity and transitivity of the
negation.  Both Player.ltB (min-heaps) and Player.gtB (max-heaps)
satisfy it. -/
structure CmpOk (lt : Player → Player → Bool) : Prop where
  asymm : ∀ {a b}, lt a b = true → lt b a = false
  trans : ∀ {a b c}, lt a b = true → lt b c = true → lt a c = true
  negtrans : ∀ {a b c}, lt a b = false → lt b c = false → lt a c = false

theorem cmpOk_ltB : CmpOk Player.ltB :=
  ⟨Player.ltB_asymm, Player.ltB_trans, Player.ltB_negtrans⟩

theorem cmpOk_gtB : CmpOk Player.gtB :=
  ⟨Player.gtB_asymm, Player.gtB_trans, Player.gtB_negtrans⟩

theorem CmpOk.irrefl {lt : Player → Player → Bool} (hc : CmpOk lt) (a : Player) :
    lt a a = false := by
  cases h : lt a a with
  | false => rfl
  | true => rw [hc.asymm h] at h; exact h.symm

/-- The heap-order property restricted to subtrees rooted at positions at
least i: no child (at 2p+1 or 2p+2) compares strictly before its parent
p ≥ i.  HeapFrom lt l 0 is the full heap property of the range, the
is_heap property std::make_heap establishes (with comp c the heap
property is that comp(parent, child) never holds; for a min-heap comp is
std::greater, so lt here is the promoted-child test of the sift loops). -/
def HeapFrom (lt : Player → Player → Bool) (l : List Player) (i : Nat) : Prop :=
  ∀ p c, i ≤ p → (c = 2*p+1 ∨ c = 2*p+2) → c < l.length →
    lt (nth l c) (nth l p) = false

/-- The full heap property over the whole list. -/
def IsHeap (lt : Player → Player → Bool) (l : List Player) : Prop := HeapFrom lt l 0

/-- One round of the percolation loop of Online::replaceMin: the index of
the smaller (according to lt) of position j and its existing children,
computed exactly as in the source (left child checked first, then the
right child against the running smallerChild). -/
def smallerChild (lt : Player → Player → Bool) (l : List Player) (j : Nat) : Nat :=
  let size := l.length
  let child := 2*j+1
  let s1 := if child < size ∧ lt (nth l child) (nth l j) = true then child else j
  if child+1 < size ∧ lt (nth l (child+1)) (nth l s1) = true then child+1 else s1

/-- Fuel-indexed percolate-down; with fuel at least the range length this
is the loop of Online::replaceMin started at index j, and also the
sift-down primitive that the libstdc++ make_heap/pop_heap calls are built
from. -/
def siftDownFuel (lt : Player → Player → Bool) : Nat → List Player → Nat → List Player
  | 0, l, _ => l
  | fuel+1, l, j =>
    if smallerChild lt l j = j then l
    else siftDownFuel lt fuel (swapL l j (smallerChild lt l j)) (smallerChild lt l j)

/-- Percolate down from index j with sufficient fuel. -/
def siftDown (lt : Player → Player → Bool) (l : List Player) (j : Nat) : List Player :=
  siftDownFuel lt l.length l j

theorem smallerChild_ge (lt : Player → Player → Bool) (l : List Player) (j : Nat) :
    j ≤ smallerChild lt l j ∧ smallerChild lt l j ≤ 2*j+2 := by
  simp only [smallerChild]
  split_ifs <;> omega

theorem smallerChild_child (lt : Player → Player → Bool) (l : List Player) (j : Nat)
    (h : smallerChild lt l j ≠ j) :
    smallerChild lt l j = 2*j+1 ∨ smallerChild lt l j = 2*j+2 := by
  simp only [smallerChild] at h ⊢
  split_ifs at h ⊢ <;> omega

theorem smallerChild_lt_length (lt : Player → Player → Bool) (l : List Player) (j : Nat)
    (h : smallerChild lt l j ≠ j) :
    smallerChild lt l j < l.length ∧ j < smallerChild lt l j := by
  simp only [smallerChild] at h ⊢
  split_ifs at h ⊢ with h1 h2 h2 <;> omega

/-- When the smaller-child computation moves, the moved-to child strictly
precedes the current node. -/
theorem smallerChild_beats (lt : Player → Player → Bool) (hc : CmpOk lt)
    (l : List Player) (j : Nat) (h : smallerChild lt l j ≠ j) :
    lt (nth l (smallerChild lt l j)) (nth l j) = true := by
  simp only [smallerChild] at h ⊢
  split_ifs at h ⊢ with h1 h2 h2
  · exact hc.trans h2.2 h1.2
  · exact h1.2
  · exact h2.2
  · omega

/-- When the smaller-child computation moves, no existing child strictly
precedes the selected one. -/
theorem smallerChild_best (lt : Player → Player → Bool) (hc : CmpOk lt)
    (l : List Player) (j : Nat) (h : smallerChild lt l j ≠ j) :
    ∀ c, (c = 2*j+1 ∨ c = 2*j+2) → c < l.length →
      lt (nth l c) (nth l (smallerChild lt l j)) = false := by
  intro c hcc hclen
  simp only [smallerChild] at h ⊢
  split_ifs at h ⊢ with h1 h2 h2
  · rcases hcc with rfl | rfl
    · exact hc.asymm h2.2
    · exact hc.irrefl _
  · rcases hcc with rfl | rfl
    · exact hc.irrefl _
    · rw [not_and_or] at h2
      rcases h2 with h2 | h2
      · omega
      · simpa using h2
  · rcases hcc with rfl | rfl
    · cases hx : lt (nth l (2*j+1)) (nth l (2*j+2)) with
      | false => rfl
      | true =>
        exfalso
        have hjj := hc.trans hx h2.2
        rw [not_and_or] at h1
        rcases h1 with h1 | h1
        · omega
        · exact h1 hjj
    · exact hc.irrefl _
  · omega

/-- When the smaller-child computation stays, no existing child strictly
precedes position j: the heap pair property holds at j. -/
theorem smallerChild_stay (lt : Player → Player → Bool)
    (l : List Player) (j : Nat) (h : smallerChild lt l j = j) :
    ∀ c, (c = 2*j+1 ∨ c = 2*j+2) → c < l.length →
      lt (nth l c) (nth l j) = false := by
  intro c hcc hclen
  simp only [smallerChild] at h
  split_ifs at h with h1 h2 h2
  · omega
  · omega
  · omega
  · rw [not_and_or] at h1 h2
    rcases hcc with rfl | rfl
    · rcases h1 with h1 | h1
      · omega
      · simpa using h1
    · rcases h2 with h2 | h2
      · omega
      · simpa using h2

theorem length_siftDownFuel (lt : Player → Player → Bool) :
    ∀ fuel l j, (siftDownFuel lt fuel l j).length = l.length := by
  intro fuel
  induction fuel with
  | zero => intro l j; rfl
  | succ fuel ih =>
    intro l j
    rw [siftDownFuel]
    split_ifs with h
    · rfl
    · rw [ih, length_swapL]

theorem siftDownFuel_perm (lt : Player → Player → Bool) :
    ∀ fuel l j, (siftDownFuel lt fuel l j).Perm l := by
  intro fuel
  induction fuel with
  | zero => intro l j; rfl
  | succ fuel ih =>
    intro l j
    rw [siftDownFuel]
    split_ifs with h
    · rfl
    · have hb := smallerChild_lt_length lt l j h
      exact (ih _ _).trans (swapL_perm l (by omega) hb.1)

theorem length_siftDown (lt : Player → Player → Bool) (l : List Player) (j : Nat) :
    (siftDown lt l j).length = l.length := length_siftDownFuel lt l.length l j

theorem siftDown_perm (lt : Player → Player → Bool) (l : List Player) (j : Nat) :
    (siftDown lt l j).Perm l := siftDownFuel_perm lt l.length l j

/-- Core sift-down correctness: starting the percolation at index j,
where the subtree region at or above i0 satisfies the heap pair property
everywhere except possibly between j and its children, and (when the walk
has already descended, i0 < j) the children of j are not before the
parent of j, the percolation restores the heap pair property on the whole
region at or above i0. -/
theorem siftDownFuel_heapFrom (lt : Player → Player → Bool) (hc : CmpOk lt) (i0 : Nat) :
    ∀ (fuel : Nat) (l : List Player) (j : Nat),
      l.length ≤ fuel + j → i0 ≤ j →
      (∀ p c, i0 ≤ p → p ≠ j → (c = 2*p+1 ∨ c = 2*p+2) → c < l.length →
        lt (nth l c) (nth l p) = false) →
      (i0 < j → ∀ c, (c = 2*j+1 ∨ c = 2*j+2) → c < l.length →
        lt (nth l c) (nth l ((j-1)/2)) = false) →
      HeapFrom lt (siftDownFuel lt fuel l j) i0 := by
  intro fuel
  induction fuel with
  | zero =>
    intro l j hlen hij hcond1 hcond2
    simp only [siftDownFuel]
    intro p c hp hcc hclen
    by_cases hpj : p = j
    · subst hpj; omega
    · exact hcond1 p c hp hpj hcc hclen
  | succ fuel ih =>
    intro l j hlen hij hcond1 hcond2
    rw [siftDownFuel]
    split_ifs with hs
    · intro p c hp hcc hclen
      by_cases hpj : p = j
      · subst hpj
        exact smallerChild_stay lt l p hs c hcc hclen
      · exact hcond1 p c hp hpj hcc hclen
    · set s := smallerChild lt l j with hsdef
      have hbounds := smallerChild_lt_length lt l j hs
      have hchild := smallerChild_child lt l j hs
      have hbeats := smallerChild_beats lt hc l j hs
      have hbest := smallerChild_best lt hc l j hs
      have hjlen : j < l.length := by omega
      have hlen' : (swapL l j s).length = l.length := length_swapL l j s
      have hnthj : nth (swapL l j s) j = nth l s := nth_swapL_left hjlen (by omega)
      have hnths : nth (swapL l j s) s = nth l j := nth_swapL_right hbounds.1
      have hother : ∀ m, m ≠ j → m ≠ s → nth (swapL l j s) m = nth l m :=
        fun m h1 h2 => nth_swapL_other h1 h2
      apply ih (swapL l j s) s
      · rw [hlen']; omega
      · omega
      · intro p c hp hps hcc hclen
        rw [hlen'] at hclen
        by_cases hpj : p = j
        · subst hpj
          by_cases hcs : c = s
          · subst hcs
            rw [hnthj, hnths]
            exact hc.asymm hbeats
          · rw [hnthj, hother c (by omega) hcs]
            exact hbest c hcc hclen
        · by_cases hcj : c = j
          · have hpar : p = (j-1)/2 := by omega
            have hi0j : i0 < j := by omega
            rw [hcj, hnthj, hother p hpj hps, hpar]
            exact hcond2 hi0j s hchild hbounds.1
          · have hcs : c ≠ s := by omega
            rw [hother c hcj hcs, hother p hpj hps]
            exact hcond1 p c hp hpj hcc hclen
      · intro hi0s c hcc hclen
        rw [hlen'] at hclen
        have hpar : (s-1)/2 = j := by omega
        have hcj : c ≠ j := by omega
        have hcs : c ≠ s := by omega
        rw [hpar, hother c hcj hcs, hnthj]
        exact hcond1 s c (by omega) hs hcc hclen

/-- Entry point: percolating down from index i repairs a range whose heap
property holds from i+1 on. -/
theorem siftDown_heapFrom (lt : Player → Player → Bool) (hc : CmpOk lt)
    {l : List Player} {i : Nat} (h : HeapFrom lt l (i+1)) :
    HeapFrom lt (siftDown lt l i) i := by
  apply siftDownFuel_heapFrom lt hc i l.length l i (by omega) (le_refl i)
  · intro p c hp hpj hcc hclen
    exact h p c (by omega) hcc hclen
  · intro hii
    omega

/-- In a heap, no element strictly precedes the root. -/
theorem isHeap_root (lt : Player → Player → Bool) (hc : CmpOk lt)
    {l : List Player} (h : IsHeap lt l) :
    ∀ m, m < l.length → lt (nth l m) (nth l 0) = false := by
  intro m
  induction m using Nat.strong_induction_on with
  | _ m ih =>
    intro hm
    rcases Nat.eq_zero_or_pos m with rfl | hpos
    · exact hc.irrefl _
    · have hpair : lt (nth l m) (nth l ((m-1)/2)) = false :=
        h ((m-1)/2) m (Nat.zero_le _) (by omega) hm
      have hrec : lt (nth l ((m-1)/2)) (nth l 0) = false :=
        ih ((m-1)/2) (by omega) (by omega)
      exact hc.negtrans hpair hrec

/-- In a heap, no member strictly precedes the root. -/
theorem isHeap_root_mem (lt : Player → Player → Bool) (hc : CmpOk lt)
    {l : List Player} (h : IsHeap lt l) :
    ∀ x ∈ l, lt x (nth l 0) = false := by
  intro x hx
  rcases List.mem_iff_getElem.mp hx with ⟨m, hm, rfl⟩
  rw [← nth_eq_getElem hm]
  exact isHeap_root lt hc h m hm

/-- Floyd heap construction, the algorithm behind std::make_heap: sift
down every internal node, deepest first. -/
def makeHeapAux (lt : Player → Player → Bool) : Nat → List Player → List Player
  | 0, l => l
  | i+1, l => makeHeapAux lt i (siftDown lt l i)

/-- Model of std::make_heap(first, last, comp): builds the heap order on
the whole list (lt is the promoted-child comparison: Player.ltB when comp
is std::greater as in rankIncoming, Player.gtB for the default comp as in
heapRank). -/
def makeHeap (lt : Player → Player → Bool) (l : List Player) : List Player :=
  makeHeapAux lt (l.length / 2) l

theorem makeHeapAux_length (lt : Player → Player → Bool) :
    ∀ i l, (makeHeapAux lt i l).length = l.length := by
  intro i
  induction i with
  | zero => intro l; rfl
  | succ i ih => intro l; rw [makeHeapAux, ih, length_siftDown]

theorem makeHeapAux_perm (lt : Player → Player → Bool) :
    ∀ i l, (makeHeapAux lt i l).Perm l := by
  intro i
  induction i with
  | zero => intro l; rfl
  | succ i ih => intro l; exact (ih _).trans (siftDown_perm lt l i)

theorem makeHeapAux_heapFrom (lt : Player → Player → Bool) (hc : CmpOk lt) :
    ∀ i l, HeapFrom lt l i → IsHeap lt (makeHeapAux lt i l) := by
  intro i
  induction i with
  | zero => intro l h; exact h
  | succ i ih =>
    intro l h
    rw [makeHeapAux]
    apply ih
    exact siftDown_heapFrom lt hc h

theorem makeHeap_length (lt : Player → Player → Bool) (l : List Player) :
    (makeHeap lt l).length = l.length := makeHeapAux_length lt _ l

theorem makeHeap_perm (lt : Player → Player → Bool) (l : List Player) :
    (makeHeap lt l).Perm l := makeHeapAux_perm lt _ l

theorem makeHeap_isHeap (lt : Player → Player → Bool) (hc : CmpOk lt) (l : List Player) :
    IsHeap lt (makeHeap lt l) := by
  apply makeHeapAux_heapFrom lt hc
  intro p c hp hcc hclen
  omega

/-- Online::replaceMin(first, last, target): overwrite the heap root with
the target value and percolate it down (the iterator range is the whole
window list here). -/
def Online.replaceMin (l : List Player) (target : Player) : List Player :=
  siftDown Player.ltB (l.set 0 target) 0

theorem replaceMin_length (l : List Player) (t : Player) :
    (Online.replaceMin l t).length = l.length := by
  unfold Online.replaceMin
  rw [length_siftDown, List.length_set]

theorem replaceMin_isHeap {l : List Player} (h : IsHeap Player.ltB l) (t : Player) :
    IsHeap Player.ltB (Online.replaceMin l t) := by
  apply siftDown_heapFrom Player.ltB cmpOk_ltB
  intro p c hp hcc hclen
  rw [List.length_set] at hclen
  rw [nth_set_ne (by omega) t, nth_set_ne (by omega) t]
  exact h p c (by omega) hcc hclen

theorem replaceMin_perm {l : List Player} (hne : l ≠ []) (t : Player) :
    (Online.replaceMin l t).Perm (t :: l.tail) := by
  unfold Online.replaceMin
  have hset : l.set 0 t = t :: l.tail := by
    cases l with
    | nil => exact absurd rfl hne
    | cons a as => rfl
  rw [hset]
  exact siftDown_perm Player.ltB _ 0

/-- Model of std::pop_heap(first, first + m, comp): swap the root with
the last element of the range and restore the heap order on the first
m - 1 positions by sifting the new root down; the rest of the list is
untouched. -/
def popHeap (lt : Player → Player → Bool) (l : List Player) (m : Nat) : List Player :=
  siftDown lt ((swapL l 0 (m-1)).take (m-1)) 0 ++ (swapL l 0 (m-1)).drop (m-1)

theorem popHeap_length (lt : Player → Player → Bool) (l : List Player) (m : Nat) :
    (popHeap lt l m).length = l.length := by
  unfold popHeap
  rw [List.length_append, length_siftDown, List.length_take, List.length_drop, length_swapL]
  have := List.length_take (m-1) (swapL l 0 (m-1))
  rw [length_swapL] at *
  omega

theorem popHeap_perm (lt : Player → Player → Bool) {l : List Player} {m : Nat}
    (hm : 1 ≤ m) (hml : m ≤ l.length) : (popHeap lt l m).Perm l := by
  unfold popHeap
  have h1 : (siftDown lt ((swapL l 0 (m-1)).take (m-1)) 0 ++
      (swapL l 0 (m-1)).drop (m-1)).Perm
      ((swapL l 0 (m-1)).take (m-1) ++ (swapL l 0 (m-1)).drop (m-1)) :=
    (siftDown_perm lt _ 0).append_right _
  rw [List.take_append_drop] at h1
  exact h1.trans (swapL_perm l (by omega) (by omega))

theorem pLe_refl (p : Player) : pLe p p := by
  rw [pLe, Player.leB_iff_ltB]
  exact Player.ltB_irrefl p

theorem drop_swapL {l : List Player} {m : Nat} (hm : 1 ≤ m) (hml : m ≤ l.length) :
    (swapL l 0 (m-1)).drop (m-1) = nth l 0 :: l.drop m := by
  apply List.ext_getElem
  · rw [List.length_drop, length_swapL, List.length_cons, List.length_drop]
    omega
  · intro i h1 h2
    have hlen : (swapL l 0 (m-1)).length = l.length := length_swapL l 0 (m-1)
    rw [List.length_drop, hlen] at h1
    have hidx : m - 1 + i < (swapL l 0 (m-1)).length := by omega
    rw [List.getElem_drop, ← nth_eq_getElem hidx]
    cases i with
    | zero =>
      rw [List.getElem_cons_zero]
      have : m - 1 + 0 = m - 1 := by omega
      rw [this, nth_swapL_right (by omega)]
    | succ i' =>
      rw [List.getElem_cons_succ]
      have h3 : i' < (l.drop m).length := by rw [List.length_drop]; omega
      rw [List.getElem_drop, ← nth_eq_getElem (show m + i' < l.length by omega)]
      have : m - 1 + (i' + 1) = m + i' := by omega
      rw [this, nth_swapL_other (by omega) (by omega)]

theorem take_swapL_set {l : List Player} {m : Nat} (hm : 1 ≤ m) (hml : m ≤ l.length) :
    (swapL l 0 (m-1)).take (m-1) = (l.take (m-1)).set 0 (nth l (m-1)) := by
  apply List.ext_getElem
  · rw [List.length_take, length_swapL, List.length_set, List.length_take]
  · intro i h1 h2
    rw [List.length_take, length_swapL] at h1
    have hidx : i < (swapL l 0 (m-1)).length := by rw [length_swapL]; omega
    have hidx2 : i < l.length := by omega
    rw [List.getElem_take, ← nth_eq_getElem hidx]
    have hset : i < ((l.take (m-1)).set 0 (nth l (m-1))).length := h2
    rw [← nth_eq_getElem hset]
    cases i with
    | zero =>
      rw [nth_swapL_left (by omega) (by omega)]
      rw [nth_set_self (by rw [List.length_take]; omega)]
    | succ i' =>
      rw [nth_swapL_other (by omega) (by omega), nth_set_ne (by omega), nth_take (by omega)]

/-- After popHeap on a range of m heap-ordered positions, the first m-1
positions are again heap-ordered. -/
theorem popHeap_take_isHeap (lt : Player → Player → Bool) (hc : CmpOk lt)
    {l : List Player} {m : Nat} (hm : 1 ≤ m) (hml : m ≤ l.length)
    (hheap : IsHeap lt (l.take m)) :
    IsHeap lt ((popHeap lt l m).take (m-1)) := by
  have hlenA : (siftDown lt ((swapL l 0 (m-1)).take (m-1)) 0).length = m - 1 := by
    rw [length_siftDown, List.length_take, length_swapL]
    omega
  unfold popHeap
  rw [List.take_left' hlenA]
  apply siftDown_heapFrom lt hc
  intro p c hp hcc hclen
  rw [List.length_take, length_swapL] at hclen
  have hc2 : c < m - 1 := by omega
  have hp2 : p < m - 1 := by omega
  rw [nth_take hc2, nth_take hp2, nth_swapL_other (by omega) (by omega),
    nth_swapL_other (by omega) (by omega)]
  have := hheap p c (by omega) hcc (by rw [List.length_take]; omega)
  rwa [nth_take (by omega), nth_take (by omega)] at this

/-- popHeap moves the root to position m-1 and leaves everything from
there on otherwise unchanged. -/
theorem popHeap_drop (lt : Player → Player → Bool)
    {l : List Player} {m : Nat} (hm : 1 ≤ m) (hml : m ≤ l.length) :
    (popHeap lt l m).drop (m-1) = nth l 0 :: l.drop m := by
  have hlenA : (siftDown lt ((swapL l 0 (m-1)).take (m-1)) 0).length = m - 1 := by
    rw [length_siftDown, List.length_take, length_swapL]
    omega
  unfold popHeap
  rw [List.drop_left' hlenA]
  exact drop_swapL hm hml

/-- In a max-heap prefix that is a permutation of a sorted prefix, the
root is exactly the last element of the sorted prefix. -/
theorem heap_root_eq_sorted {l S : List Player} {m : Nat}
    (hm : 1 ≤ m) (hml : m ≤ l.length)
    (hheap : IsHeap Player.gtB (l.take m))
    (htake : (l.take m).Perm (S.take m))
    (hS : List.Sorted pLe S) (hSlen : m ≤ S.length) :
    nth l 0 = nth S (m-1) := by
  have hlt : (l.take m).length = m := by rw [List.length_take]; omega
  have hst : (S.take m).length = m := by rw [List.length_take]; omega
  have hroot : nth (l.take m) 0 = nth l 0 := nth_take (by omega)
  have hSm : nth S (m-1) ∈ S.take m := by
    rw [nth_eq_getElem (show m-1 < S.length by omega)]
    rw [List.mem_iff_getElem]
    exact ⟨m-1, by omega, by rw [List.getElem_take]⟩
  have hSm' : nth S (m-1) ∈ l.take m := htake.mem_iff.mpr hSm
  have h1 : pLe (nth S (m-1)) (nth l 0) := by
    have := isHeap_root_mem Player.gtB cmpOk_gtB hheap (nth S (m-1)) hSm'
    rw [hroot] at this
    rw [pLe, Player.leB_iff_ltB]
    exact this
  have h2 : pLe (nth l 0) (nth S (m-1)) := by
    have hmem : nth l 0 ∈ l.take m := by
      rw [← hroot, nth_eq_getElem (show 0 < (l.take m).length by omega)]
      exact List.getElem_mem _
    have hmem2 : nth l 0 ∈ S.take m := htake.mem_iff.mp hmem
    rcases List.mem_iff_getElem.mp hmem2 with ⟨idx, hidx, hval⟩
    rw [hst] at hidx
    have hidxS : idx < S.length := by omega
    rw [List.getElem_take] at hval
    rcases Nat.lt_or_ge idx (m-1) with hlt2 | hge
    · have hpair := List.pairwise_iff_getElem.mp hS idx (m-1)
        hidxS (by omega) (by omega)
      rw [hval, ← nth_eq_getElem (show m-1 < S.length by omega)] at hpair
      exact hpair
    · have : idx = m-1 := by omega
      subst this
      rw [← hval, ← nth_eq_getElem hidxS]
      exact pLe_refl _
  exact antisymm h2 h1

/-- The pop phase of Offline::heapRank: k iterations of
std::pop_heap(players.begin(), players.end() - i), i.e. popHeap over
ranges of lengths m, m-1, ..., m-k+1. -/
def popLoop (lt : Player → Player → Bool) : Nat → List Player → Nat → List Player
  | 0, l, _ => l
  | k+1, l, m => popLoop lt k (popHeap lt l m) (m-1)

/-- Invariant of the pop phase: the list stays a permutation of the
sorted reference S, the unprocessed prefix stays a max-heap, and the
processed suffix coincides with the corresponding suffix of S. -/
theorem popLoop_spec (k : Nat) :
    ∀ (l S : List Player) (m : Nat),
      k ≤ m → m ≤ l.length → l.Perm S → List.Sorted pLe S →
      IsHeap Player.gtB (l.take m) → l.drop m = S.drop m →
      (popLoop Player.gtB k l m).Perm S ∧
        (popLoop Player.gtB k l m).drop (m-k) = S.drop (m-k) ∧
        (popLoop Player.gtB k l m).length = l.length := by
  induction k with
  | zero =>
    intro l S m hk hml hperm hS hheap hdrop
    rw [popLoop]
    exact ⟨hperm, by simpa using hdrop, rfl⟩
  | succ k ih =>
    intro l S m hk hml hperm hS hheap hdrop
    have hm1 : 1 ≤ m := by omega
    have hSlen : S.length = l.length := hperm.length_eq.symm
    have htake : (l.take m).Perm (S.take m) := by
      have hsplit : l.take m ++ l.drop m = l := List.take_append_drop m l
      have hsplitS : S.take m ++ S.drop m = S := List.take_append_drop m S
      apply (List.perm_append_right_iff (l.drop m)).mp
      rw [hsplit, hdrop, hsplitS]
      exact hperm
    have hroot : nth l 0 = nth S (m-1) :=
      heap_root_eq_sorted hm1 hml hheap htake hS (by omega)
    have hdropS : S.drop (m-1) = nth S (m-1) :: S.drop m := by
      rw [nth_eq_getElem (show m-1 < S.length by omega)]
      rw [← List.getElem_cons_drop S (m-1)]
      have : m - 1 + 1 = m := by omega
      rw [this]
    have hd : (popHeap Player.gtB l m).drop (m-1) = S.drop (m-1) := by
      rw [popHeap_drop Player.gtB hm1 hml, hroot, hdrop, hdropS]
    have hlen' : (popHeap Player.gtB l m).length = l.length := popHeap_length _ l m
    rw [popLoop]
    have hres := ih (popHeap Player.gtB l m) S (m-1) (by omega) (by omega)
      ((popHeap_perm Player.gtB hm1 hml).trans hperm) hS
      (popHeap_take_isHeap Player.gtB cmpOk_gtB hm1 hml hheap) hd
    have harith : m - 1 - k = m - (k+1) := by omega
    rw [harith] at hres
    exact ⟨hres.1, hres.2.1, by rw [hres.2.2, hlen']⟩

/-- Offline::heapRank: make a max-heap of the whole vector, pop the top
floor(0.1 n) elements to the end of the shrinking range, copy the last
floor(0.1 n) positions into top_ and sort them; cutoffs_ stays empty and
the mutated vector is returned alongside.  The double computation
std::floor(0.1 * n) equals n / 10 for every representable vector size,
so topTen is modelled as n / 10. -/
def Offline.heapRank (players : List Player) : RankingResult × List Player :=
  let topTen := players.length / 10
  let popped := popLoop Player.gtB topTen (makeHeap Player.gtB players) players.length
  (⟨sortP (popped.drop (players.length - topTen)), []⟩, popped)

/-- heapRank's top_ is exactly the suffix of the fully sorted input of
length floor(n/10), and the input vector ends up permuted. -/
theorem heapRank_spec (players : List Player) :
    (Offline.heapRank players).1.top_ =
      (sortP players).drop (players.length - players.length / 10) ∧
    (Offline.heapRank players).2.Perm players ∧
    (Offline.heapRank players).1.cutoffs_ = [] := by
  have hS : List.Sorted pLe (sortP players) := sortP_sorted players
  have hSperm : players.Perm (sortP players) := (sortP_perm players).symm
  have hlen1 : (makeHeap Player.gtB players).length = players.length :=
    makeHeap_length _ players
  have htake : (makeHeap Player.gtB players).take players.length =
      makeHeap Player.gtB players :=
    List.take_of_length_le (by omega)
  have hdrop : (makeHeap Player.gtB players).drop players.length =
      (sortP players).drop players.length := by
    rw [List.drop_eq_nil_of_le (by omega), List.drop_eq_nil_of_le (by rw [sortP_length])]
  have hspec := popLoop_spec (players.length / 10) (makeHeap Player.gtB players)
    (sortP players) players.length (Nat.div_le_self _ 10) (by omega)
    ((makeHeap_perm Player.gtB players).trans hSperm) hS
    (by rw [htake]; exact makeHeap_isHeap Player.gtB cmpOk_gtB players) hdrop
  have hsorted : List.Sorted pLe
      ((sortP players).drop (players.length - players.length / 10)) :=
    List.Pairwise.sublist (List.drop_sublist _ _) hS
  refine ⟨?_, hspec.1.trans hSperm.symm, rfl⟩
  show sortP ((popLoop Player.gtB (players.length / 10) (makeHeap Player.gtB players)
      players.length).drop (players.length - players.length / 10)) = _
  rw [hspec.2.1]
  exact List.Sorted.insertionSort_eq hsorted

theorem take_eq_of_nth_eq {l l2 : List Player} (hlen : l2.length = l.length) {c : Nat}
    (h : ∀ m, m < c → nth l2 m = nth l m) : l2.take c = l.take c := by
  apply List.ext_getElem
  · rw [List.length_take, List.length_take, hlen]
  · intro i h1 h2
    rw [List.length_take] at h1
    rw [List.getElem_take, List.getElem_take]
    rw [← nth_eq_getElem (show i < l2.length by omega),
      ← nth_eq_getElem (show i < l.length by omega)]
    exact h i (by omega)

theorem drop_eq_of_nth_eq {l l2 : List Player} (hlen : l2.length = l.length) {c : Nat}
    (h : ∀ m, c ≤ m → nth l2 m = nth l m) : l2.drop c = l.drop c := by
  apply List.ext_getElem
  · rw [List.length_drop, List.length_drop, hlen]
  · intro i h1 h2
    rw [List.length_drop] at h1
    rw [List.getElem_drop, List.getElem_drop]
    rw [← nth_eq_getElem (show c + i < l2.length by omega),
      ← nth_eq_getElem (show c + i < l.length by omega)]
    exact h (c + i) (by omega)

theorem drop_perm_of_frame {l l2 : List Player} (hperm : l2.Perm l)
    (hlen : l2.length = l.length) {c : Nat}
    (h : ∀ m, m < c → nth l2 m = nth l m) : (l2.drop c).Perm (l.drop c) := by
  have ht := take_eq_of_nth_eq hlen h
  have h2 : (l2.take c ++ l2.drop c).Perm (l.take c ++ l.drop c) := by
    rw [List.take_append_drop, List.take_append_drop]
    exact hperm
  rw [ht] at h2
  exact (List.perm_append_left_iff _).mp h2

theorem take_perm_of_frame {l l2 : List Player} (hperm : l2.Perm l)
    (hlen : l2.length = l.length) {c : Nat}
    (h : ∀ m, c ≤ m → nth l2 m = nth l m) : (l2.take c).Perm (l.take c) := by
  have hd := drop_eq_of_nth_eq hlen h
  have h2 : (l2.take c ++ l2.drop c).Perm (l.take c ++ l.drop c) := by
    rw [List.take_append_drop, List.take_append_drop]
    exact hperm
  rw [hd] at h2
  exact (List.perm_append_right_iff _).mp h2

theorem mid_perm {l l2 : List Player} (hperm : l2.Perm l)
    (hlen : l2.length = l.length) {a b : Nat} (hab : a ≤ b)
    (hframe : ∀ m, m < a ∨ b ≤ m → nth l2 m = nth l m) :
    ((l2.take b).drop a).Perm ((l.take b).drop a) := by
  have htb : (l2.take b).Perm (l.take b) :=
    take_perm_of_frame hperm hlen (fun m hm => hframe m (Or.inr hm))
  have hta : l2.take a = l.take a :=
    take_eq_of_nth_eq hlen (fun m hm => hframe m (Or.inl hm))
  have h1 : ∀ (u : List Player), u.take a ++ (u.take b).drop a = u.take b := by
    intro u
    have : u.take a = (u.take b).take a := by
      rw [List.take_take, Nat.min_eq_left hab]
    rw [this, List.take_append_drop]
  have h2 := htb
  rw [← h1 l2, ← h1 l, hta] at h2
  exact (List.perm_append_left_iff _).mp h2

/-- Transport a pointwise property of a segment across an operation that
permutes the list, keeps its length and fixes everything outside the
segment: the new segment values all come from the old segment. -/
theorem seg_pointwise {l l2 : List Player} (hperm : l2.Perm l)
    (hlen : l2.length = l.length) {a b : Nat} (hab : a ≤ b)
    (hframe : ∀ m, m < a ∨ b ≤ m → nth l2 m = nth l m)
    {P : Player → Prop} (hP : ∀ j, a ≤ j → j < b → j < l.length → P (nth l j)) :
    ∀ m, a ≤ m → m < b → m < l2.length → P (nth l2 m) := by
  intro m hm1 hm2 hm3
  have hmem : nth l2 m ∈ (l2.take b).drop a := by
    rw [List.mem_iff_getElem]
    refine ⟨m - a, by rw [List.length_drop, List.length_take]; omega, ?_⟩
    rw [List.getElem_drop, List.getElem_take]
    have : a + (m - a) = m := by omega
    rw [← nth_eq_getElem (show a + (m-a) < l2.length by omega), this]
  have hmem2 : nth l2 m ∈ (l.take b).drop a :=
    (mid_perm hperm hlen hab hframe).mem_iff.mp hmem
  rcases List.mem_iff_getElem.mp hmem2 with ⟨j, hj, hval⟩
  rw [List.length_drop, List.length_take] at hj
  rw [List.getElem_drop, List.getElem_take,
    ← nth_eq_getElem (show a + j < l.length by omega)] at hval
  rw [← hval]
  exact hP (a + j) (by omega) (by omega) (by omega)

/-- The scan loop of Offline::partition: for i from its start value up to
high-1, elements with level at most the pivot level are swapped down to
the growing lower boundary.  Indices are the int variables of the source,
modelled as Int (vector accesses use toNat; all accesses are in bounds
under the preconditions of the specs below). -/
def partitionLoop : Nat → List Player → Player → Int → Int → Int → List Player × Int
  | 0, l, _, lower, _, _ => (l, lower)
  | fuel+1, l, x, lower, i, high =>
    if i < high then
      if (nth l i.toNat).level_ ≤ x.level_ then
        partitionLoop fuel (swapL l lower.toNat i.toNat) x (lower+1) (i+1) high
      else
        partitionLoop fuel l x lower (i+1) high
    else (l, lower)

/-- Offline::partition(players, low, high): Lomuto partition of the range
[low, high] with pivot value players[high], comparing levels only; returns
the partitioned vector and the final pivot position. -/
def Offline.partition (l : List Player) (low high : Int) : List Player × Int :=
  let x := nth l high.toNat
  let res := partitionLoop l.length l x low low high
  (swapL res.1 res.2.toNat high.toNat, res.2)

/-- Offline::quickSort(players, low, high), fuel-indexed (the fuel bounds
the recursion depth; any fuel above the range length computes the real
function). -/
def quickSortFuel : Nat → List Player → Int → Int → List Player
  | 0, l, _, _ => l
  | fuel+1, l, low, high =>
    if low < high then
      let res := Offline.partition l low high
      quickSortFuel fuel (quickSortFuel fuel res.1 low (res.2 - 1)) (res.2 + 1) high
    else l

def Offline.quickSort (l : List Player) (low high : Int) : List Player :=
  quickSortFuel (l.length + 1) l low high

/-- Offline::quickSelect(players, low, high, k), fuel-indexed. -/
def quickSelectFuel : Nat → List Player → Int → Int → Int → List Player
  | 0, l, _, _, _ => l
  | fuel+1, l, low, high, k =>
    if low < high then
      let res := Offline.partition l low high
      if res.2 = k then res.1
      else if res.2 < k then quickSelectFuel fuel res.1 (res.2 + 1) high k
      else quickSelectFuel fuel res.1 low (res.2 - 1) k
    else l

def Offline.quickSelect (l : List Player) (low high k : Int) : List Player :=
  quickSelectFuel (l.length + 1) l low high k

/-- Offline::quickSelectRank: quickselect the boundary index
topTen = n - floor(0.1 n) into place, quicksort the upper slice
[topTen, n-1], and copy it into top_; cutoffs_ stays empty and the
partitioned vector is returned alongside.  players.size() - 1 is the
size_t-to-int conversion of the source, which for an empty vector yields
-1. -/
def Offline.quickSelectRank (players : List Player) : RankingResult × List Player :=
  let topTen : Int := (players.length : Int) - ((players.length / 10 : Nat) : Int)
  let l1 := Offline.quickSelect players 0 ((players.length : Int) - 1) topTen
  let l2 := Offline.quickSort l1 topTen ((players.length : Int) - 1)
  (⟨l2.drop topTen.toNat, []⟩, l2)

/-- Full characterization of the partition scan loop. -/
theorem partitionLoop_spec :
    ∀ (fuel : Nat) (l : List Player) (x : Player) (lb lower i high : Int),
      (high - i).toNat ≤ fuel →
      0 ≤ lb → lb ≤ lower →
      0 ≤ lower → lower ≤ i → i ≤ high → high < (l.length : Int) →
      (∀ m : Int, lb ≤ m → m < lower → (nth l m.toNat).level_ ≤ x.level_) →
      (∀ m : Int, lower ≤ m → m < i → x.level_ < (nth l m.toNat).level_) →
      ((partitionLoop fuel l x lower i high).1.length = l.length ∧
       (partitionLoop fuel l x lower i high).1.Perm l ∧
       (∀ m : Int, 0 ≤ m → (m < lower ∨ high ≤ m) →
         nth (partitionLoop fuel l x lower i high).1 m.toNat = nth l m.toNat) ∧
       lower ≤ (partitionLoop fuel l x lower i high).2 ∧
       (partitionLoop fuel l x lower i high).2 ≤ high ∧
       (∀ m : Int, lb ≤ m → m < (partitionLoop fuel l x lower i high).2 →
         (nth (partitionLoop fuel l x lower i high).1 m.toNat).level_ ≤ x.level_) ∧
       (∀ m : Int, (partitionLoop fuel l x lower i high).2 ≤ m → m < high →
         x.level_ < (nth (partitionLoop fuel l x lower i high).1 m.toNat).level_)) := by
  intro fuel
  induction fuel with
  | zero =>
    intro l x lb lower i high hfuel hlb0 hlb h0 hli hih hhn hP1 hP2
    have hieq : i = high := by omega
    subst hieq
    rw [partitionLoop]
    exact ⟨rfl, List.Perm.refl l, fun m _ _ => rfl, by omega, by omega,
      fun m hm1 hm2 => hP1 m hm1 hm2, fun m hm1 hm2 => hP2 m hm1 hm2⟩
  | succ fuel ih =>
    intro l x lb lower i high hfuel hlb0 hlb h0 hli hih hhn hP1 hP2
    rw [partitionLoop]
    split_ifs with hcond hlev
    · -- players[i].level_ <= x.level_ : swap and advance both
      have hlow : lower.toNat < l.length := by omega
      have hi : i.toNat < l.length := by omega
      have hres := ih (swapL l lower.toNat i.toNat) x lb (lower+1) (i+1) high
        (by omega) hlb0 (by omega) (by omega) (by omega) (by omega)
        (by rw [length_swapL]; omega)
        (by
          intro m hm1 hm2
          by_cases hmeq : m = lower
          · have hval : nth (swapL l lower.toNat i.toNat) lower.toNat = nth l i.toNat := by
              by_cases hle : lower.toNat = i.toNat
              · rw [hle]
                exact nth_swapL_right hi
              · exact nth_swapL_left hlow hle
            rw [hmeq, hval]
            exact hlev
          · rw [nth_swapL_other (by omega) (by omega)]
            exact hP1 m hm1 (by omega))
        (by
          intro m hm1 hm2
          by_cases hmi : m = i
          · rw [hmi, nth_swapL_right hi]
            exact hP2 lower (by omega) (by omega)
          · rw [nth_swapL_other (by omega) (by omega)]
            exact hP2 m (by omega) (by omega))
      refine ⟨by rw [hres.1, length_swapL], hres.2.1.trans (swapL_perm l hlow hi), ?_,
        by omega, hres.2.2.2.2.1, hres.2.2.2.2.2.1, hres.2.2.2.2.2.2⟩
      intro m hm1 hm2
      rw [hres.2.2.1 m hm1 (by omega), nth_swapL_other (by omega) (by omega)]
    · -- advance i only
      have hres := ih l x lb lower (i+1) high (by omega) hlb0 hlb h0 (by omega) (by omega)
        hhn hP1
        (by
          intro m hm1 hm2
          rcases eq_or_ne m i with rfl | hne
          · omega
          · exact hP2 m hm1 (by omega))
      exact ⟨hres.1, hres.2.1, fun m hm1 hm2 => hres.2.2.1 m hm1 (by omega), by omega,
        hres.2.2.2.2.1, hres.2.2.2.2.2.1, hres.2.2.2.2.2.2⟩
    · -- i ≥ high: loop ends
      exact ⟨rfl, List.Perm.refl l, fun m _ _ => rfl, by omega, by omega,
        fun m hm1 hm2 => hP1 m hm1 hm2, fun m hm1 hm2 => hP2 m hm1 (by omega)⟩

/-- Full characterization of Offline::partition on a valid range:
the result is a permutation rearranging only [low, high], the returned
pivot index p lies in [low, high], holds the old value of players[high],
everything in [low, p) has level at most the pivot level, and everything
in (p, high] has level strictly above it. -/
theorem partition_spec (l : List Player) (low high : Int)
    (h0 : 0 ≤ low) (hlh : low ≤ high) (hhn : high < (l.length : Int)) :
    ((Offline.partition l low high).1.length = l.length ∧
     (Offline.partition l low high).1.Perm l ∧
     (∀ m : Int, 0 ≤ m → (m < low ∨ high < m) →
       nth (Offline.partition l low high).1 m.toNat = nth l m.toNat) ∧
     low ≤ (Offline.partition l low high).2 ∧
     (Offline.partition l low high).2 ≤ high ∧
     nth (Offline.partition l low high).1 (Offline.partition l low high).2.toNat =
       nth l high.toNat ∧
     (∀ m : Int, low ≤ m → m < (Offline.partition l low high).2 →
       (nth (Offline.partition l low high).1 m.toNat).level_ ≤ (nth l high.toNat).level_) ∧
     (∀ m : Int, (Offline.partition l low high).2 < m → m ≤ high →
       (nth l high.toNat).level_ < (nth (Offline.partition l low high).1 m.toNat).level_)) := by
  have hloop := partitionLoop_spec l.length l (nth l high.toNat) low low low high
    (by omega) h0 (by omega) h0 (by omega) hlh hhn
    (by intro m hm1 hm2; omega)
    (by intro m hm1 hm2; omega)
  set res := partitionLoop l.length l (nth l high.toNat) low low high with hresdef
  obtain ⟨hlen, hperm, hframe, hp1, hp2, hQ1, hQ2⟩ := hloop
  have hpn : res.2.toNat < res.1.length := by omega
  have hhn2 : high.toNat < res.1.length := by omega
  have hxval : nth res.1 high.toNat = nth l high.toNat :=
    hframe high (by omega) (Or.inr (by omega))
  have hshow : Offline.partition l low high = (swapL res.1 res.2.toNat high.toNat, res.2) := by
    rw [Offline.partition]
  rw [hshow]
  dsimp only
  have hpivval : nth (swapL res.1 res.2.toNat high.toNat) res.2.toNat = nth l high.toNat := by
    by_cases heq : res.2.toNat = high.toNat
    · rw [heq, nth_swapL_right hhn2, ← heq]
      rw [heq]
      exact hxval
    · rw [nth_swapL_left hpn heq]
      exact hxval
  refine ⟨by rw [length_swapL, hlen], (swapL_perm res.1 hpn hhn2).trans hperm, ?_, hp1, hp2,
    hpivval, ?_, ?_⟩
  · intro m hm1 hm2
    rw [nth_swapL_other (by omega) (by omega)]
    exact hframe m hm1 (by omega)
  · intro m hm1 hm2
    rw [nth_swapL_other (by omega) (by omega)]
    exact hQ1 m hm1 hm2
  · intro m hm1 hm2
    by_cases hmh : m = high
    · by_cases heq : res.2 = high
      · omega
      · rw [hmh, nth_swapL_right hhn2]
        exact hQ2 res.2 (by omega) (by omega)
    · rw [nth_swapL_other (by omega) (by omega)]
      exact hQ2 m (by omega) (by omega)

/-- Int-index version of seg_pointwise for inclusive ranges [a, b]. -/
theorem seg_pointwise_int {l l2 : List Player} (hperm : l2.Perm l)
    (hlen : l2.length = l.length) {a b : Int} (h0a : 0 ≤ a) (hab : a ≤ b)
    (hframe : ∀ m : Int, 0 ≤ m → (m < a ∨ b < m) → nth l2 m.toNat = nth l m.toNat)
    {P : Player → Prop}
    (hP : ∀ j : Int, a ≤ j → j ≤ b → j < (l.length : Int) → P (nth l j.toNat)) :
    ∀ m : Int, a ≤ m → m ≤ b → m < (l2.length : Int) → P (nth l2 m.toNat) := by
  intro m hm1 hm2 hm3
  have hmain := seg_pointwise hperm hlen (show a.toNat ≤ b.toNat + 1 by omega)
    (fun mm hmm => by
      have := hframe (mm : Int) (by omega) (by omega)
      simpa using this)
    (P := P)
    (fun j hj1 hj2 hj3 => by
      have := hP (j : Int) (by omega) (by omega) (by omega)
      simpa using this)
  have := hmain m.toNat (by omega) (by omega) (by omega)
  exact this

/-- Full characterization of Offline::quickSort on a range with enough
fuel: a permutation of the input touching only [low, high], with the
segment [low, high] non-decreasing by level afterwards. -/
theorem quickSortFuel_spec :
    ∀ (fuel : Nat) (l : List Player) (low high : Int),
      (high - low).toNat < fuel → 0 ≤ low → high < (l.length : Int) →
      ((quickSortFuel fuel l low high).length = l.length ∧
       (quickSortFuel fuel l low high).Perm l ∧
       (∀ m : Int, 0 ≤ m → (m < low ∨ high < m) →
         nth (quickSortFuel fuel l low high) m.toNat = nth l m.toNat) ∧
       (∀ a b : Int, low ≤ a → a ≤ b → b ≤ high →
         (nth (quickSortFuel fuel l low high) a.toNat).level_ ≤
           (nth (quickSortFuel fuel l low high) b.toNat).level_)) := by
  intro fuel
  induction fuel with
  | zero =>
    intro l low high hfuel h0 hhn
    exact absurd hfuel (by omega)
  | succ fuel ih =>
    intro l low high hfuel h0 hhn
    rw [quickSortFuel]
    split_ifs with hlh
    · obtain ⟨plen, pperm, pframe, hp1, hp2, ppiv, pA1, pA2⟩ :=
        partition_spec l low high h0 (by omega) hhn
      set lp := (Offline.partition l low high).1 with hlpdef
      set p := (Offline.partition l low high).2 with hpdef
      obtain ⟨l1len, l1perm, l1frame, l1sort⟩ :=
        ih lp low (p-1) (by omega) h0 (by omega)
      set L1 := quickSortFuel fuel lp low (p-1) with hL1def
      obtain ⟨l2len, l2perm, l2frame, l2sort⟩ :=
        ih L1 (p+1) high (by omega) (by omega) (by omega)
      set L2 := quickSortFuel fuel L1 (p+1) high with hL2def
      have hLlen : L2.length = l.length := by rw [l2len, l1len, plen]
      have hpiv2 : nth L2 p.toNat = nth l high.toNat := by
        rw [l2frame p (by omega) (Or.inl (by omega)),
          l1frame p (by omega) (Or.inr (by omega)), ppiv]
      have hleft : ∀ m : Int, low ≤ m → m ≤ p-1 →
          (nth L2 m.toNat).level_ ≤ (nth l high.toNat).level_ := by
        intro m hm1 hm2
        rw [l2frame m (by omega) (Or.inl (by omega))]
        exact seg_pointwise_int l1perm l1len h0 (by omega) l1frame
          (P := fun pl => pl.level_ ≤ (nth l high.toNat).level_)
          (fun j hj1 hj2 hj3 => pA1 j hj1 (by omega))
          m hm1 hm2 (by omega)
      have hright : ∀ m : Int, p+1 ≤ m → m ≤ high →
          (nth l high.toNat).level_ < (nth L2 m.toNat).level_ := by
        intro m hm1 hm2
        exact seg_pointwise_int l2perm l2len (by omega) (by omega) l2frame
          (P := fun pl => (nth l high.toNat).level_ < pl.level_)
          (fun j hj1 hj2 hj3 => by
            rw [l1frame j (by omega) (Or.inr (by omega))]
            exact pA2 j (by omega) hj2)
          m hm1 hm2 (by omega)
      refine ⟨hLlen, (l2perm.trans l1perm).trans pperm, ?_, ?_⟩
      · intro m hm1 hm2
        rw [l2frame m hm1 (by omega), l1frame m hm1 (by omega), pframe m hm1 hm2]
      · intro a b ha1 hab hb
        rcases lt_trichotomy b p with hbp | hbp | hbp
        · rw [l2frame a (by omega) (Or.inl (by omega)),
            l2frame b (by omega) (Or.inl (by omega))]
          exact l1sort a b ha1 hab (by omega)
        · rcases eq_or_lt_of_le hab with heq | hlt2
          · rw [heq]
          · rw [hbp, hpiv2]
            exact hleft a ha1 (by omega)
        · rcases lt_trichotomy a p with hap | hap | hap
          · exact le_trans (hleft a ha1 (by omega)) (le_of_lt (hright b (by omega) hb))
          · rw [hap, hpiv2]
            exact le_of_lt (hright b (by omega) hb)
          · exact l2sort a b (by omega) hab hb
    · refine ⟨rfl, List.Perm.refl l, fun m _ _ => rfl, ?_⟩
      intro a b ha1 hab hb
      have : a = b := by omega
      rw [this]

theorem nth_mem_drop {l : List Player} {c m : Nat} (h1 : c ≤ m) (h2 : m < l.length) :
    nth l m ∈ l.drop c := by
  rw [List.mem_iff_getElem]
  refine ⟨m - c, by rw [List.length_drop]; omega, ?_⟩
  rw [List.getElem_drop, ← nth_eq_getElem (show c + (m - c) < l.length by omega)]
  congr 1
  omega

theorem nth_mem_take {l : List Player} {c m : Nat} (h1 : m < c) (h2 : m < l.length) :
    nth l m ∈ l.take c := by
  rw [List.mem_iff_getElem]
  refine ⟨m, by rw [List.length_take]; omega, ?_⟩
  rw [List.getElem_take, ← nth_eq_getElem h2]

theorem mem_drop_mono {l : List Player} {c d : Nat} (h : c ≤ d) {y : Player}
    (hy : y ∈ l.drop d) : y ∈ l.drop c := by
  have h2 : (l.drop c).drop (d - c) = l.drop d := by
    rw [List.drop_drop]
    congr 1
    omega
  rw [← h2] at hy
  exact List.drop_subset _ _ hy

theorem mem_drop_nth {l : List Player} {c : Nat} {y : Player} (hy : y ∈ l.drop c) :
    ∃ idx, c ≤ idx ∧ idx < l.length ∧ y = nth l idx := by
  rcases List.mem_iff_getElem.mp hy with ⟨j, hj, hval⟩
  rw [List.length_drop] at hj
  refine ⟨c + j, by omega, by omega, ?_⟩
  rw [← hval, List.getElem_drop, ← nth_eq_getElem (show c + j < l.length by omega)]

theorem mem_take_nth {l : List Player} {c : Nat} {x : Player} (hx : x ∈ l.take c) :
    ∃ idx, idx < c ∧ idx < l.length ∧ x = nth l idx := by
  rcases List.mem_iff_getElem.mp hx with ⟨j, hj, hval⟩
  rw [List.length_take] at hj
  refine ⟨j, by omega, by omega, ?_⟩
  rw [← hval, List.getElem_take, ← nth_eq_getElem (show j < l.length by omega)]

/-- Full characterization of Offline::quickSelect: assuming the regions
outside [low, high] are already in their final partitioned relation to
the inside (conditions L and R below), the call permutes only [low,
high] and afterwards every position below k has level at most the level
of every position at or above k. -/
theorem quickSelectFuel_spec :
    ∀ (fuel : Nat) (l : List Player) (low high k : Int),
      (high - low).toNat < fuel → 0 ≤ low → high < (l.length : Int) →
      low ≤ k → k ≤ high + 1 →
      (∀ a : Int, 0 ≤ a → a < low → ∀ y ∈ l.drop low.toNat,
        (nth l a.toNat).level_ ≤ y.level_) →
      (∀ x ∈ l.take (high+1).toNat, ∀ b : Int, high < b → b < (l.length : Int) →
        x.level_ ≤ (nth l b.toNat).level_) →
      ((quickSelectFuel fuel l low high k).length = l.length ∧
       (quickSelectFuel fuel l low high k).Perm l ∧
       (∀ m : Int, 0 ≤ m → (m < low ∨ high < m) →
         nth (quickSelectFuel fuel l low high k) m.toNat = nth l m.toNat) ∧
       (∀ a b : Int, 0 ≤ a → a < k → k ≤ b → b < (l.length : Int) →
         (nth (quickSelectFuel fuel l low high k) a.toNat).level_ ≤
           (nth (quickSelectFuel fuel l low high k) b.toNat).level_)) := by
  intro fuel
  induction fuel with
  | zero =>
    intro l low high k hfuel h0 hhn hlk hkh hL hR
    exact absurd hfuel (by omega)
  | succ fuel ih =>
    intro l low high k hfuel h0 hhn hlk hkh hL hR
    simp only [quickSelectFuel]
    split_ifs with hlh hpk hplt
    · -- pivot lands exactly at k: return the partitioned vector
      obtain ⟨plen, pperm, pframe, hp1, hp2, ppiv, pA1, pA2⟩ :=
        partition_spec l low high h0 (by omega) hhn
      refine ⟨plen, pperm, fun m hm1 hm2 => pframe m hm1 hm2, ?_⟩
      intro a b ha0 hak hkb hbn
      set lp := (Offline.partition l low high).1
      set p := (Offline.partition l low high).2
      rcases Int.lt_or_le a low with halow | halow
      · -- a is left of the range: use L
        rw [pframe a ha0 (Or.inl halow)]
        have hyb : nth lp b.toNat ∈ lp.drop low.toNat :=
          nth_mem_drop (by omega) (by omega)
        have hdperm : (lp.drop low.toNat).Perm (l.drop low.toNat) :=
          drop_perm_of_frame pperm plen
            (fun m hm => by
              have := pframe (m : Int) (by omega) (Or.inl (by omega))
              simpa using this)
        exact hL a ha0 halow _ (hdperm.mem_iff.mp hyb)
      · -- low ≤ a < k = p: partitioned below the pivot
        have halev : (nth lp a.toNat).level_ ≤ (nth l high.toNat).level_ :=
          pA1 a halow (by omega)
        rcases Int.lt_or_le high b with hbh | hbh
        · -- b beyond the range: use R through the pivot value
          have hxmem : nth lp a.toNat ∈ lp.take (high+1).toNat :=
            nth_mem_take (by omega) (by omega)
          have htperm : (lp.take (high+1).toNat).Perm (l.take (high+1).toNat) :=
            take_perm_of_frame pperm plen
              (fun m hm => by
                have := pframe (m : Int) (by omega) (Or.inr (by omega))
                simpa using this)
          have := hR _ (htperm.mem_iff.mp hxmem) b hbh hbn
          rwa [← pframe b (by omega) (Or.inr hbh)] at this
        · -- b inside [k, high]
          rcases eq_or_lt_of_le hkb with heq | hlt2
          · rw [← heq, ← hpk, ppiv]
            exact halev
          · have := pA2 b (by omega) hbh
            omega
    · -- pivot left of k: recurse into (p+1, high)
      obtain ⟨plen, pperm, pframe, hp1, hp2, ppiv, pA1, pA2⟩ :=
        partition_spec l low high h0 (by omega) hhn
      set lp := (Offline.partition l low high).1 with hlp
      set p := (Offline.partition l low high).2 with hp
      have hdperm : (lp.drop low.toNat).Perm (l.drop low.toNat) :=
        drop_perm_of_frame pperm plen
          (fun m hm => by
            have := pframe (m : Int) (by omega) (Or.inl (by omega))
            simpa using this)
      have htperm : (lp.take (high+1).toNat).Perm (l.take (high+1).toNat) :=
        take_perm_of_frame pperm plen
          (fun m hm => by
            have := pframe (m : Int) (by omega) (Or.inr (by omega))
            simpa using this)
      have hL2 : ∀ a : Int, 0 ≤ a → a < p+1 → ∀ y ∈ lp.drop (p+1).toNat,
          (nth lp a.toNat).level_ ≤ y.level_ := by
        intro a ha0 hap y hy
        rcases mem_drop_nth hy with ⟨idx, hidx1, hidx2, rfl⟩
        rcases Int.lt_or_le a low with halow | halow
        · have hymem : nth lp idx ∈ lp.drop low.toNat := nth_mem_drop (by omega) hidx2
          rw [pframe a ha0 (Or.inl halow)]
          exact hL a ha0 halow _ (hdperm.mem_iff.mp hymem)
        · rcases Int.le_or_lt (idx : Int) high with hih | hih
          · have hpiv_lt : (nth l high.toNat).level_ < (nth lp idx).level_ := by
              have := pA2 (idx : Int) (by omega) hih
              simpa using this
            rcases Int.lt_or_le a p with hap2 | hap2
            · have := pA1 a halow hap2
              omega
            · have hae : a = p := by omega
              rw [hae, ppiv]
              omega
          · have hxmem : nth lp a.toNat ∈ lp.take (high+1).toNat :=
              nth_mem_take (by omega) (by omega)
            have := hR _ (htperm.mem_iff.mp hxmem) (idx : Int) hih (by omega)
            have hframe_idx : nth lp idx = nth l idx := by
              have := pframe (idx : Int) (by omega) (Or.inr hih)
              simpa using this
            rw [hframe_idx]
            simpa using this
      have hR2 : ∀ x ∈ lp.take (high+1).toNat, ∀ b : Int, high < b → b < (lp.length : Int) →
          x.level_ ≤ (nth lp b.toNat).level_ := by
        intro x hx b hb1 hb2
        have := hR _ (htperm.mem_iff.mp hx) b hb1 (by omega)
        have hframe_b : nth lp b.toNat = nth l b.toNat :=
          pframe b (by omega) (Or.inr hb1)
        rw [hframe_b]
        exact this
      obtain ⟨rlen, rperm, rframe, rsort⟩ := ih lp (p+1) high k (by omega) (by omega)
        (by omega) (by omega) (by omega) hL2 hR2
      refine ⟨by rw [rlen, plen], rperm.trans pperm, ?_, ?_⟩
      · intro m hm1 hm2
        rw [rframe m hm1 (by omega), pframe m hm1 (by omega)]
      · intro a b ha0 hak hkb hbn
        exact rsort a b ha0 hak hkb (by omega)
    · -- pivot right of k: recurse into (low, p-1)
      obtain ⟨plen, pperm, pframe, hp1, hp2, ppiv, pA1, pA2⟩ :=
        partition_spec l low high h0 (by omega) hhn
      set lp := (Offline.partition l low high).1 with hlp
      set p := (Offline.partition l low high).2 with hp
      have hdperm : (lp.drop low.toNat).Perm (l.drop low.toNat) :=
        drop_perm_of_frame pperm plen
          (fun m hm => by
            have := pframe (m : Int) (by omega) (Or.inl (by omega))
            simpa using this)
      have htperm : (lp.take (high+1).toNat).Perm (l.take (high+1).toNat) :=
        take_perm_of_frame pperm plen
          (fun m hm => by
            have := pframe (m : Int) (by omega) (Or.inr (by omega))
            simpa using this)
      have hL2 : ∀ a : Int, 0 ≤ a → a < low → ∀ y ∈ lp.drop low.toNat,
          (nth lp a.toNat).level_ ≤ y.level_ := by
        intro a ha0 halow y hy
        rw [pframe a ha0 (Or.inl halow)]
        exact hL a ha0 halow _ (hdperm.mem_iff.mp hy)
      have hR2 : ∀ x ∈ lp.take ((p-1)+1).toNat, ∀ b : Int, p-1 < b → b < (lp.length : Int) →
          x.level_ ≤ (nth lp b.toNat).level_ := by
        intro x hx b hb1 hb2
        rcases mem_take_nth hx with ⟨idx, hidx1, hidx2, rfl⟩
        rcases Int.lt_or_le (idx : Int) low with hil | hil
        · -- idx left of the range: use L
          have hframe_idx : nth lp idx = nth l idx := by
            have := pframe (idx : Int) (by omega) (Or.inl hil)
            simpa using this
          have hymem : nth lp b.toNat ∈ lp.drop low.toNat :=
            nth_mem_drop (by omega) (by omega)
          rw [hframe_idx]
          have := hL (idx : Int) (by omega) hil _ (hdperm.mem_iff.mp hymem)
          simpa using this
        · -- low ≤ idx < p
          have hidxlev : (nth lp idx).level_ ≤ (nth l high.toNat).level_ := by
            have := pA1 (idx : Int) hil (by omega)
            simpa using this
          rcases Int.le_or_lt b high with hbh | hbh
          · rcases eq_or_lt_of_le (show p ≤ b by omega) with heq | hlt2
            · rw [← heq, ppiv]
              exact hidxlev
            · have := pA2 b hlt2 hbh
              omega
          · have hxmem : nth lp idx ∈ lp.take (high+1).toNat :=
              nth_mem_take (by omega) (by omega)
            have := hR _ (htperm.mem_iff.mp hxmem) b hbh (by omega)
            have hframe_b : nth lp b.toNat = nth l b.toNat :=
              pframe b (by omega) (Or.inr hbh)
            rw [hframe_b]
            exact this
      obtain ⟨rlen, rperm, rframe, rsort⟩ := ih lp low (p-1) k (by omega) h0
        (by omega) (by omega) (by omega) hL2 hR2
      refine ⟨by rw [rlen, plen], rperm.trans pperm, ?_, ?_⟩
      · intro m hm1 hm2
        rw [rframe m hm1 (by omega), pframe m hm1 (by omega)]
      · intro a b ha0 hak hkb hbn
        exact rsort a b ha0 hak hkb (by omega)
    · -- low ≥ high: nothing to do
      refine ⟨rfl, List.Perm.refl l, fun m _ _ => rfl, ?_⟩
      intro a b ha0 hak hkb hbn
      rcases Int.lt_or_le a low with halow | halow
      · have hyb : nth l b.toNat ∈ l.drop low.toNat := nth_mem_drop (by omega) (by omega)
        exact hL a ha0 halow _ hyb
      · have hxmem : nth l a.toNat ∈ l.take (high+1).toNat :=
          nth_mem_take (by omega) (by omega)
        exact hR _ hxmem b (by omega) hbn

/-- Characterization of Offline::quickSelectRank: top_ is the slice
[topTen, n) of the final vector, which is a permutation of the input,
non-decreasing by level on the slice, and dominated from below by the
rest of the vector; cutoffs_ is empty. -/
theorem quickSelectRank_spec (players : List Player) :
    (Offline.quickSelectRank players).1.top_ =
      (Offline.quickSelectRank players).2.drop
        (players.length - players.length / 10) ∧
    (Offline.quickSelectRank players).2.length = players.length ∧
    (Offline.quickSelectRank players).2.Perm players ∧
    (Offline.quickSelectRank players).1.cutoffs_ = [] ∧
    List.Sorted levelLe (Offline.quickSelectRank players).1.top_ ∧
    (∀ x ∈ (Offline.quickSelectRank players).2.take
        (players.length - players.length / 10),
      ∀ y ∈ (Offline.quickSelectRank players).1.top_, x.level_ ≤ y.level_) := by
  have hn10 : players.length / 10 ≤ players.length := Nat.div_le_self _ _
  set n := players.length with hn
  set t : Int := (n : Int) - ((n/10 : Nat) : Int) with ht
  set l1 := Offline.quickSelect players 0 ((n:Int)-1) t with hl1
  set l2 := Offline.quickSort l1 t ((n:Int)-1) with hl2
  have hqsr : Offline.quickSelectRank players = (⟨l2.drop t.toNat, []⟩, l2) := rfl
  obtain ⟨l1len, l1perm, l1frame, S1⟩ := quickSelectFuel_spec (n + 1) players 0
    ((n:Int) - 1) t (by omega) (by omega) (by omega) (by omega) (by omega)
    (by intro a ha0 ha y hy; omega)
    (by intro x hx b hb1 hb2; omega)
  have hl1' : quickSelectFuel (n + 1) players 0 ((n:Int)-1) t = l1 := rfl
  rw [hl1'] at l1len l1perm l1frame S1
  obtain ⟨l2len, l2perm, l2frame, l2sort⟩ := quickSortFuel_spec (l1.length + 1) l1 t
    ((n:Int)-1) (by omega) (by omega) (by omega)
  have hl2' : quickSortFuel (l1.length + 1) l1 t ((n:Int)-1) = l2 := rfl
  rw [hl2'] at l2len l2perm l2frame l2sort
  have hl2n : l2.length = n := by rw [l2len, l1len]
  have httn : t.toNat = n - n/10 := by omega
  rw [hqsr]
  refine ⟨by rw [httn], hl2n, l2perm.trans l1perm, rfl, ?_, ?_⟩
  · -- sortedness of the slice, by level
    rw [List.Sorted, List.pairwise_iff_getElem]
    intro i j hi hj hij
    rw [List.length_drop] at hi hj
    have hi2 : t.toNat + i < l2.length := by omega
    have hj2 : t.toNat + j < l2.length := by omega
    rw [List.getElem_drop, List.getElem_drop, ← nth_eq_getElem hi2, ← nth_eq_getElem hj2]
    exact l2sort ((t.toNat + i : Nat) : Int) ((t.toNat + j : Nat) : Int)
      (by omega) (by omega) (by omega)
  · -- domination of the slice over the rest
    intro x hx y hy
    rcases mem_take_nth hx with ⟨a, ha1, ha2, rfl⟩
    rcases mem_drop_nth hy with ⟨b, hb1, hb2, rfl⟩
    have hxa : nth l2 a = nth l1 a := by
      have := l2frame ((a : Nat) : Int) (by omega) (Or.inl (by omega))
      simpa using this
    rw [hxa]
    exact seg_pointwise_int l2perm l2len (by omega) (by omega) l2frame
      (P := fun pl => (nth l1 a).level_ ≤ pl.level_)
      (fun j hj1 hj2 hj3 => S1 ((a : Nat) : Int) j (by omega) (by omega) (by omega)
        (by omega))
      ((b : Nat) : Int) (by omega) (by omega) (by omega)

theorem Player.ltB_level_le {p q : Player} (h : Player.ltB p q = true) :
    p.level_ ≤ q.level_ := by
  rcases Player.ltB_iff.mp h with h1 | ⟨h1, _⟩ <;> omega

theorem nth_zero_mem {l : List Player} (h : l ≠ []) : nth l 0 ∈ l := by
  cases l with
  | nil => exact absurd rfl h
  | cons a t => exact List.mem_cons_self a t

theorem window_cons {l : List Player} (h : l ≠ []) : l = nth l 0 :: l.tail := by
  cases l with
  | nil => exact absurd rfl h
  | cons a t => rfl

/-- VectorPlayerStream (PlayerStream.cpp): an in-memory stream over a
copied vector with a cursor. -/
structure VectorPlayerStream where
  players_ : List Player
  currIndex : Nat
deriving Repr, DecidableEq

/-- The VectorPlayerStream constructor: copies the vector, cursor at 0. -/
def VectorPlayerStream.ofVector (players : List Player) : VectorPlayerStream :=
  ⟨players, 0⟩

/-- VectorPlayerStream::remaining(). -/
def VectorPlayerStream.remaining (s : VectorPlayerStream) : Nat :=
  s.players_.length - s.currIndex

/-- VectorPlayerStream::nextPlayer(): throws "Out of Bounds." when the
cursor is at or past the end, otherwise returns the current player and
advances the cursor (players_[currIndex++]). -/
def VectorPlayerStream.nextPlayer (s : VectorPlayerStream) :
    Except String (Player × VectorPlayerStream) :=
  if s.currIndex ≥ s.players_.length then Except.error "Out of Bounds."
  else Except.ok (nth s.players_ s.currIndex, ⟨s.players_, s.currIndex + 1⟩)

/-- One iteration of the while loop of Online::rankIncoming, after
nextPlayer has produced currPlayer and count has been incremented: in
the fill phase push the player and re-establish the min-heap with
std::make_heap(.., std::greater); once full, replace the minimum via
replaceMin when the incoming player beats it; then record a cutoff when
count is a multiple of the reporting interval and the window is
non-empty. -/
def rankStep (reporting_interval : Nat) (currPlayer : Player) (count : Nat)
    (window : List Player) (cuts : List (Nat × Nat)) :
    List Player × List (Nat × Nat) :=
  let window' :=
    if window.length < reporting_interval then
      makeHeap Player.ltB (window ++ [currPlayer])
    else if Player.ltB (nth window 0) currPlayer then
      Online.replaceMin window currPlayer
    else window
  let cuts' :=
    if count % reporting_interval = 0 ∧ window' ≠ [] then
      cuts ++ [(count, (nth window' 0).level_)]
    else cuts
  (window', cuts')

/-- The while loop of Online::rankIncoming, fuel-indexed; the fuel is the
number of remaining stream elements, which the loop consumes one per
iteration. -/
def rankLoop (reporting_interval : Nat) :
    Nat → VectorPlayerStream → Nat → List Player → List (Nat × Nat) →
    List Player × List (Nat × Nat)
  | 0, _, _, window, cuts => (window, cuts)
  | fuel+1, s, count, window, cuts =>
    if s.remaining > 0 then
      match s.nextPlayer with
      | Except.ok (currPlayer, s') =>
        let res := rankStep reporting_interval currPlayer (count+1) window cuts
        rankLoop reporting_interval fuel s' (count+1) res.1 res.2
      | Except.error _ => (window, cuts)
    else (window, cuts)

/-- Online::rankIncoming over a VectorPlayerStream (the only stream
implementation of the sources): consume the stream to exhaustion, then
sort the window ascending into top_. -/
def Online.rankIncoming (stream : VectorPlayerStream) (reporting_interval : Nat) :
    RankingResult :=
  let res := rankLoop reporting_interval stream.remaining stream 0 [] []
  ⟨sortP res.1, res.2⟩

/-- The loop invariant of Online::rankIncoming: count counts the consumed
players C; the window is a min-heap holding min(count, k) of them; C
splits into the window and a rest that the window dominates; the cutoff
trace has strictly increasing keys (positive multiples of k, at most
count) and values below the current window minimum level. -/
structure RankInv (k : Nat) (C : List Player) (count : Nat) (window : List Player)
    (cuts : List (Nat × Nat)) : Prop where
  hcount : count = C.length
  hlen : window.length = min count k
  hheap : IsHeap Player.ltB window
  hsplit : ∃ rest, C.Perm (window ++ rest) ∧
    ∀ r ∈ rest, ∀ w ∈ window, Player.leB r w = true
  hpair : List.Pairwise (fun a b => a.1 < b.1 ∧ a.2 ≤ b.2) cuts
  hcuts : ∀ kv ∈ cuts, kv.1 ≤ count ∧ kv.1 % k = 0 ∧ 1 ≤ kv.1 ∧
    kv.2 ≤ (nth window 0).level_

theorem cuts_append_ok {k count vOld vNew : Nat} {cuts : List (Nat × Nat)}
    (hpair : List.Pairwise (fun a b => a.1 < b.1 ∧ a.2 ≤ b.2) cuts)
    (hcuts : ∀ kv ∈ cuts, kv.1 ≤ count ∧ kv.1 % k = 0 ∧ 1 ≤ kv.1 ∧ kv.2 ≤ vOld)
    (hmono : vOld ≤ vNew) (hmod : (count+1) % k = 0) :
    List.Pairwise (fun a b => a.1 < b.1 ∧ a.2 ≤ b.2) (cuts ++ [(count+1, vNew)]) ∧
    ∀ kv ∈ cuts ++ [(count+1, vNew)],
      kv.1 ≤ count+1 ∧ kv.1 % k = 0 ∧ 1 ≤ kv.1 ∧ kv.2 ≤ vNew := by
  constructor
  · rw [List.pairwise_append]
    refine ⟨hpair, List.pairwise_singleton _ _, ?_⟩
    intro a ha b hb
    rw [List.mem_singleton] at hb
    subst hb
    have := hcuts a ha
    exact ⟨by omega, by omega⟩
  · intro kv hkv
    rw [List.mem_append, List.mem_singleton] at hkv
    rcases hkv with hkv | rfl
    · have := hcuts kv hkv
      exact ⟨by omega, this.2.1, this.2.2.1, by omega⟩
    · exact ⟨le_refl _, hmod, by omega, le_refl _⟩

theorem cuts_keep_ok {k count vOld vNew : Nat} {cuts : List (Nat × Nat)}
    (hcuts : ∀ kv ∈ cuts, kv.1 ≤ count ∧ kv.1 % k = 0 ∧ 1 ≤ kv.1 ∧ kv.2 ≤ vOld)
    (hmono : vOld ≤ vNew) :
    ∀ kv ∈ cuts, kv.1 ≤ count+1 ∧ kv.1 % k = 0 ∧ 1 ≤ kv.1 ∧ kv.2 ≤ vNew := by
  intro kv hkv
  have := hcuts kv hkv
  exact ⟨by omega, this.2.1, this.2.2.1, by omega⟩

/-- The loop body preserves the rankIncoming invariant. -/
theorem rankStep_inv {k : Nat} (hk : 0 < k) {C : List Player} {count : Nat}
    {window : List Player} {cuts : List (Nat × Nat)} (p : Player)
    (inv : RankInv k C count window cuts) :
    RankInv k (C ++ [p]) (count+1) (rankStep k p (count+1) window cuts).1
      (rankStep k p (count+1) window cuts).2 := by
  obtain ⟨hcount, hlen, hheap, ⟨rest, hperm, hdom⟩, hpair, hcuts⟩ := inv
  simp only [rankStep]
  by_cases hfill : window.length < k
  · -- fill phase
    rw [if_pos hfill]
    have hcount_lt : count < k := by omega
    have hrest : rest = [] := by
      apply List.eq_nil_of_length_eq_zero
      have h1 := hperm.length_eq
      rw [List.length_append] at h1
      omega
    subst hrest
    rw [List.append_nil] at hperm
    have hW'len : (makeHeap Player.ltB (window ++ [p])).length = count + 1 := by
      rw [makeHeap_length, List.length_append]
      simp
      omega
    have hW'ne : makeHeap Player.ltB (window ++ [p]) ≠ [] :=
      List.ne_nil_of_length_pos (by omega)
    have hcutsnil : cuts = [] := by
      by_contra hne
      rcases List.exists_mem_of_ne_nil cuts hne with ⟨kv, hkv⟩
      have h6 := hcuts kv hkv
      have hdvd : k ≤ kv.1 := Nat.le_of_dvd (by omega) (Nat.dvd_of_mod_eq_zero h6.2.1)
      omega
    subst hcutsnil
    have hsplit' : (C ++ [p]).Perm (makeHeap Player.ltB (window ++ [p]) ++ []) := by
      rw [List.append_nil]
      exact (hperm.append_right [p]).trans (makeHeap_perm Player.ltB (window ++ [p])).symm
    by_cases hcond : (count+1) % k = 0 ∧ makeHeap Player.ltB (window ++ [p]) ≠ []
    · rw [if_pos hcond]
      refine ⟨by simp [hcount], by rw [hW'len]; omega,
        makeHeap_isHeap Player.ltB cmpOk_ltB _, ⟨[], hsplit', by simp⟩, ?_, ?_⟩
      · simp [List.pairwise_singleton]
      · intro kv hkv
        rw [List.nil_append, List.mem_singleton] at hkv
        subst hkv
        exact ⟨le_refl _, hcond.1, by omega, le_refl _⟩
    · rw [if_neg hcond]
      refine ⟨by simp [hcount], by rw [hW'len]; omega,
        makeHeap_isHeap Player.ltB cmpOk_ltB _, ⟨[], hsplit', by simp⟩,
        List.Pairwise.nil, by simp⟩
  · -- window is full
    have hwk : window.length = k := by omega
    have hcge : k ≤ count := by omega
    have hwne : window ≠ [] := List.ne_nil_of_length_pos (by omega)
    have hroot_mem : ∀ w ∈ window, Player.ltB w (nth window 0) = false :=
      isHeap_root_mem Player.ltB cmpOk_ltB hheap
    rw [if_neg hfill]
    by_cases hbeat : Player.ltB (nth window 0) p = true
    · -- replace the minimum
      rw [if_pos hbeat]
      have hW'perm : (Online.replaceMin window p).Perm (p :: window.tail) :=
        replaceMin_perm hwne p
      have hW'len : (Online.replaceMin window p).length = k := by
        rw [replaceMin_length, hwk]
      have hW'ne : Online.replaceMin window p ≠ [] :=
        List.ne_nil_of_length_pos (by omega)
      have hW'heap : IsHeap Player.ltB (Online.replaceMin window p) :=
        replaceMin_isHeap hheap p
      have hmono : (nth window 0).level_ ≤ (nth (Online.replaceMin window p) 0).level_ := by
        have hmem := hW'perm.mem_iff.mp (nth_zero_mem hW'ne)
        rcases List.mem_cons.mp hmem with heq | htl
        · rw [heq]
          exact Player.ltB_level_le hbeat
        · exact Player.ltB_level (hroot_mem _ (List.tail_subset window htl))
      have hweq : window = nth window 0 :: window.tail := window_cons hwne
      have hsplit' : (C ++ [p]).Perm
          (Online.replaceMin window p ++ (rest ++ [nth window 0])) := by
        have h1 : (C ++ [p]).Perm (p :: (window ++ rest)) :=
          (hperm.append_right [p]).trans (List.perm_append_singleton p (window ++ rest))
        have h2 : (window ++ rest).Perm (window.tail ++ (rest ++ [nth window 0])) := by
          have e2 : window.tail ++ (rest ++ [nth window 0]) =
              (window.tail ++ rest) ++ [nth window 0] := (List.append_assoc _ _ _).symm
          rw [e2]
          have h4 : ((window.tail ++ rest) ++ [nth window 0]).Perm
              (nth window 0 :: (window.tail ++ rest)) :=
            List.perm_append_singleton _ _
          refine List.Perm.trans ?_ h4.symm
          conv_lhs => rw [hweq]
          exact List.Perm.refl _
        exact (h1.trans (h2.cons p)).trans
          (hW'perm.append_right (rest ++ [nth window 0])).symm
      have hdom' : ∀ r ∈ rest ++ [nth window 0], ∀ w ∈ Online.replaceMin window p,
          Player.leB r w = true := by
        intro r hr w hw
        have hw2 : w ∈ p :: window.tail := hW'perm.mem_iff.mp hw
        rw [List.mem_append, List.mem_singleton] at hr
        rw [Player.leB_iff_ltB]
        rcases hr with hr | rfl
        · rcases List.mem_cons.mp hw2 with rfl | htl
          · cases hc : Player.ltB w r with
            | false => rfl
            | true =>
              have h1 : Player.ltB (nth window 0) r = false := by
                have := hdom r hr (nth window 0) (nth_zero_mem hwne)
                rwa [Player.leB_iff_ltB] at this
              have h5 := Player.ltB_trans hbeat hc
              rw [h1] at h5
              exact absurd h5 Bool.false_ne_true
          · have := hdom r hr w (List.tail_subset window htl)
            rwa [Player.leB_iff_ltB] at this
        · rcases List.mem_cons.mp hw2 with rfl | htl
          · exact Player.ltB_asymm hbeat
          · exact hroot_mem w (List.tail_subset window htl)
      by_cases hcond : (count+1) % k = 0 ∧ Online.replaceMin window p ≠ []
      · rw [if_pos hcond]
        obtain ⟨hp2, hc2⟩ := cuts_append_ok hpair hcuts hmono hcond.1
        exact ⟨by simp [hcount], by rw [hW'len]; omega, hW'heap,
          ⟨rest ++ [nth window 0], hsplit', hdom'⟩, hp2, hc2⟩
      · rw [if_neg hcond]
        exact ⟨by simp [hcount], by rw [hW'len]; omega, hW'heap,
          ⟨rest ++ [nth window 0], hsplit', hdom'⟩, hpair, cuts_keep_ok hcuts hmono⟩
    · -- incoming player does not beat the window minimum: discarded
      rw [if_neg hbeat]
      have hbf : Player.ltB (nth window 0) p = false := by
        cases h : Player.ltB (nth window 0) p
        · rfl
        · exact absurd h hbeat
      have hsplit' : (C ++ [p]).Perm (window ++ (rest ++ [p])) := by
        have := hperm.append_right [p]
        rwa [List.append_assoc] at this
      have hdom' : ∀ r ∈ rest ++ [p], ∀ w ∈ window, Player.leB r w = true := by
        intro r hr w hw
        rw [List.mem_append, List.mem_singleton] at hr
        rcases hr with hr | rfl
        · exact hdom r hr w hw
        · rw [Player.leB_iff_ltB]
          exact Player.ltB_negtrans (hroot_mem w hw) hbf
      by_cases hcond : (count+1) % k = 0 ∧ window ≠ []
      · rw [if_pos hcond]
        obtain ⟨hp2, hc2⟩ := cuts_append_ok hpair hcuts (le_refl _) hcond.1
        exact ⟨by simp [hcount], by omega, hheap,
          ⟨rest ++ [p], hsplit', hdom'⟩, hp2, hc2⟩
      · rw [if_neg hcond]
        exact ⟨by simp [hcount], by omega, hheap,
          ⟨rest ++ [p], hsplit', hdom'⟩, hpair, cuts_keep_ok hcuts (le_refl _)⟩

/-- Running the loop to exhaustion preserves the invariant, consuming
exactly the remaining players of the stream. -/
theorem rankLoop_inv (k : Nat) (hk : 0 < k) :
    ∀ (fuel : Nat) (ps : List Player) (idx count : Nat) (window : List Player)
      (cuts : List (Nat × Nat)) (C : List Player),
      fuel = ps.length - idx →
      RankInv k C count window cuts →
      RankInv k (C ++ ps.drop idx) (count + (ps.length - idx))
        (rankLoop k fuel ⟨ps, idx⟩ count window cuts).1
        (rankLoop k fuel ⟨ps, idx⟩ count window cuts).2 := by
  intro fuel
  induction fuel with
  | zero =>
    intro ps idx count window cuts C hfuel inv
    have hidx : ps.length ≤ idx := by omega
    have h0 : ps.length - idx = 0 := by omega
    rw [rankLoop, List.drop_eq_nil_of_le hidx, List.append_nil, h0, Nat.add_zero]
    exact inv
  | succ fuel ih =>
    intro ps idx count window cuts C hfuel inv
    have hidx : idx < ps.length := by omega
    rw [rankLoop]
    have hcond : (⟨ps, idx⟩ : VectorPlayerStream).remaining > 0 := by
      show ps.length - idx > 0
      omega
    rw [if_pos hcond]
    have hnp : (⟨ps, idx⟩ : VectorPlayerStream).nextPlayer =
        Except.ok (nth ps idx, ⟨ps, idx + 1⟩) := by
      rw [VectorPlayerStream.nextPlayer]
      exact if_neg (by
        show ¬ (idx ≥ ps.length)
        omega)
    rw [hnp]
    have hdropeq : ps.drop idx = nth ps idx :: ps.drop (idx+1) := by
      rw [nth_eq_getElem hidx]
      exact (List.getElem_cons_drop ps idx hidx).symm
    rw [hdropeq]
    have harith : count + (ps.length - idx) = (count+1) + (ps.length - (idx+1)) := by
      omega
    rw [harith]
    have hCeq : C ++ nth ps idx :: ps.drop (idx+1) =
        (C ++ [nth ps idx]) ++ ps.drop (idx+1) := by
      rw [List.append_assoc]
      rfl
    rw [hCeq]
    exact ih ps (idx+1) (count+1) _ _ (C ++ [nth ps idx]) (by omega)
      (rankStep_inv hk _ inv)

/-- The invariant holds of the initial loop state. -/
theorem rankInv_init (k : Nat) : RankInv k [] 0 [] [] := by
  refine ⟨rfl, by simp, ?_, ⟨[], by simp, by simp⟩, List.Pairwise.nil, by simp⟩
  intro p c hp hcc hclen
  simp at hclen

/-- Final-state characterization of Online::rankIncoming on a fresh
vector stream: the sorted window is exactly the top min(n, k) slice of
the fully sorted input, and the cutoff trace has strictly increasing keys
with non-decreasing values. -/
theorem rankIncoming_spec (players : List Player) (k : Nat) (hk : 0 < k) :
    (Online.rankIncoming (VectorPlayerStream.ofVector players) k).top_ =
      (sortP players).drop (players.length - min players.length k) ∧
    List.Pairwise (fun a b => a.1 < b.1 ∧ a.2 ≤ b.2)
      (Online.rankIncoming (VectorPlayerStream.ofVector players) k).cutoffs_ := by
  have hrem : (VectorPlayerStream.ofVector players).remaining = players.length := by
    show players.length - 0 = players.length
    omega
  have hres := rankLoop_inv k hk players.length players 0 0 [] [] []
    (by omega) (rankInv_init k)
  rw [List.nil_append, List.drop_zero, Nat.zero_add] at hres
  have hshow : Online.rankIncoming (VectorPlayerStream.ofVector players) k =
      ⟨sortP (rankLoop k players.length ⟨players, 0⟩ 0 [] []).1,
        (rankLoop k players.length ⟨players, 0⟩ 0 [] []).2⟩ := by
    rw [Online.rankIncoming, hrem, VectorPlayerStream.ofVector]
  rw [hshow]
  obtain ⟨hcount, hlen, hheap, ⟨rest, hperm, hdom⟩, hpair, hcuts⟩ := hres
  refine ⟨?_, hpair⟩
  show sortP (rankLoop k players.length ⟨players, 0⟩ 0 [] []).1 = _
  set W := (rankLoop k players.length ⟨players, 0⟩ 0 [] []).1 with hW
  have hsplit : sortP players = sortP rest ++ sortP W := by
    apply insertionSort_split pLe
    · exact hperm.trans List.perm_append_comm
    · intro x hx y hy
      exact hdom x hx y hy
  rw [hsplit]
  have hlenW : (sortP rest).length = players.length - min players.length k := by
    have h1 := hperm.length_eq
    rw [List.length_append] at h1
    rw [sortP_length]
    omega
  rw [List.drop_left' hlenW]

/-- The canonical ascending sort of a list of levels. -/
def sortNat (l : List Nat) : List Nat := List.insertionSort (· ≤ ·) l

theorem sortNat_length (l : List Nat) : (sortNat l).length = l.length :=
  (List.perm_insertionSort _ l).length_eq

theorem map_level_sortP (l : List Player) :
    (sortP l).map Player.level_ = sortNat (l.map Player.level_) := by
  apply List.eq_of_perm_of_sorted (r := fun a b : Nat => a ≤ b)
  · exact ((sortP_perm l).map _).trans (List.perm_insertionSort _ _).symm
  · exact List.Pairwise.map Player.level_ (fun a b hab => pLe_levelLe hab) (sortP_sorted l)
  · exact List.sorted_insertionSort _ _

/-- C1: the claim states that rankIncoming's cutoffs always contain an
entry keyed by the final total count (132 at interval 50), even when not
a multiple of the interval.  The code records cutoffs only inside the
loop when count is an exact multiple of the interval, so for the 132
player stream the final-count key 132 is absent: the cutoffs are exactly
{50 : 1, 100 : 51}, contradicting the function's own documentation and
example.  This theorem evaluates the model at that failing input. -/
def stream132 : List Player := (List.range 132).map (fun j => ⟨[], j+1⟩)

set_option maxRecDepth 1000000 in
theorem C1_no_final_cutoff :
    (Online.rankIncoming (VectorPlayerStream.ofVector stream132) 50).cutoffs_ =
      [(50, 1), (100, 51)] := by decide

/-- C2: for every input vector of n players, heapRank and quickSelectRank
both return a top_ sequence of length exactly floor(0.1 n) = n / 10; in
particular it is 0 for n < 10. -/
theorem C2_selection_size (players : List Player) :
    (Offline.heapRank players).1.top_.length = players.length / 10 ∧
    (Offline.quickSelectRank players).1.top_.length = players.length / 10 := by
  have hn10 : players.length / 10 ≤ players.length := Nat.div_le_self _ _
  constructor
  · rw [(heapRank_spec players).1, List.length_drop, sortP_length]
    omega
  · have hq := quickSelectRank_spec players
    rw [hq.1, List.length_drop, hq.2.1]
    omega

/-- C3: on the same input, the multiset of scores selected into top_ by
heapRank and by quickSelectRank is identical. -/
theorem C3_cross_algorithm_agreement (players : List Player) :
    ((Offline.heapRank players).1.top_.map Player.level_).Perm
      ((Offline.quickSelectRank players).1.top_.map Player.level_) := by
  have hn10 : players.length / 10 ≤ players.length := Nat.div_le_self _ _
  obtain ⟨hqtop, hqlen, hqperm, _, _, hqdom⟩ := quickSelectRank_spec players
  have hheapmap : (Offline.heapRank players).1.top_.map Player.level_ =
      (sortNat (players.map Player.level_)).drop
        (players.length - players.length / 10) := by
    rw [(heapRank_spec players).1, List.map_drop, map_level_sortP]
  have hsplitq : sortNat (players.map Player.level_) =
      sortNat (((Offline.quickSelectRank players).2.take
        (players.length - players.length / 10)).map Player.level_) ++
      sortNat ((Offline.quickSelectRank players).1.top_.map Player.level_) := by
    apply insertionSort_split (fun a b : Nat => a ≤ b)
    · have e : (Offline.quickSelectRank players).2.take
          (players.length - players.length / 10) ++
          (Offline.quickSelectRank players).1.top_ =
          (Offline.quickSelectRank players).2 := by
        rw [hqtop]
        exact List.take_append_drop _ _
      rw [← List.map_append, e]
      exact (hqperm.map _).symm
    · intro x hx y hy
      rcases List.mem_map.mp hx with ⟨x', hx', rfl⟩
      rcases List.mem_map.mp hy with ⟨y', hy', rfl⟩
      exact hqdom x' hx' y' hy'
  have hlena : (sortNat (((Offline.quickSelectRank players).2.take
      (players.length - players.length / 10)).map Player.level_)).length =
      players.length - players.length / 10 := by
    rw [sortNat_length, List.length_map, List.length_take, hqlen]
    omega
  rw [hheapmap, hsplitq, List.drop_left' hlena]
  exact List.perm_insertionSort _ _

/-- C4: for a stream of n entities and positive interval k, rankIncoming's
top_ is exactly the min(n, k) highest players of the whole stream under
the player total order, in ascending order (the length-min(n,k) suffix of
the fully sorted stream). -/
theorem C4_streaming_top (players : List Player) (k : Nat) (hk : 0 < k) :
    (Online.rankIncoming (VectorPlayerStream.ofVector players) k).top_ =
      (sortP players).drop (players.length - min players.length k) :=
  (rankIncoming_spec players k hk).1

theorem C4_witness :
    0 < 2 ∧
    (Online.rankIncoming (VectorPlayerStream.ofVector
      [⟨[], 3⟩, ⟨[], 1⟩, ⟨[], 2⟩]) 2).top_ =
      (sortP [⟨[], 3⟩, ⟨[], 1⟩, ⟨[], 2⟩]).drop (3 - min 3 2) :=
  ⟨by decide, C4_streaming_top [⟨[], 3⟩, ⟨[], 1⟩, ⟨[], 2⟩] 2 (by decide)⟩

/-- C5: replaceMin on a non-empty valid min-heap yields a valid min-heap
of the same size whose multiset is the original with the root (which is a
minimum of the range) removed and the replacement inserted. -/
theorem C5_replaceMin_repair (l : List Player) (t : Player)
    (hheap : IsHeap Player.ltB l) (hne : l ≠ []) :
    IsHeap Player.ltB (Online.replaceMin l t) ∧
    (Online.replaceMin l t).length = l.length ∧
    (Online.replaceMin l t).Perm (t :: l.tail) ∧
    (∀ x ∈ l, Player.leB (nth l 0) x = true) :=
  ⟨replaceMin_isHeap hheap t, replaceMin_length l t, replaceMin_perm hne t,
    fun x hx => Player.leB_iff_ltB.mpr
      (isHeap_root_mem Player.ltB cmpOk_ltB hheap x hx)⟩

theorem C5_witness :
    (IsHeap Player.ltB [⟨[], 1⟩, ⟨[], 2⟩, ⟨[], 3⟩] ∧
      ([⟨[], 1⟩, ⟨[], 2⟩, ⟨[], 3⟩] : List Player) ≠ []) ∧
    (IsHeap Player.ltB (Online.replaceMin [⟨[], 1⟩, ⟨[], 2⟩, ⟨[], 3⟩] ⟨[], 5⟩) ∧
      (Online.replaceMin [⟨[], 1⟩, ⟨[], 2⟩, ⟨[], 3⟩] ⟨[], 5⟩).length =
        ([⟨[], 1⟩, ⟨[], 2⟩, ⟨[], 3⟩] : List Player).length ∧
      (Online.replaceMin [⟨[], 1⟩, ⟨[], 2⟩, ⟨[], 3⟩] ⟨[], 5⟩).Perm
        (⟨[], 5⟩ :: ([⟨[], 1⟩, ⟨[], 2⟩, ⟨[], 3⟩] : List Player).tail) ∧
      (∀ x ∈ ([⟨[], 1⟩, ⟨[], 2⟩, ⟨[], 3⟩] : List Player),
        Player.leB (nth [⟨[], 1⟩, ⟨[], 2⟩, ⟨[], 3⟩] 0) x = true)) := by
  have hheap : IsHeap Player.ltB [⟨[], 1⟩, ⟨[], 2⟩, ⟨[], 3⟩] := by
    intro p c hp hcc hclen
    simp only [List.length_cons, List.length_nil] at hclen
    have hp0 : p = 0 := by omega
    subst hp0
    have hc : c = 1 ∨ c = 2 := by omega
    rcases hc with rfl | rfl <;> decide
  have hne : ([⟨[], 1⟩, ⟨[], 2⟩, ⟨[], 3⟩] : List Player) ≠ [] := by decide
  exact ⟨⟨hheap, hne⟩, C5_replaceMin_repair [⟨[], 1⟩, ⟨[], 2⟩, ⟨[], 3⟩] ⟨[], 5⟩ hheap hne⟩

/-- C6: the top_ sequence of each of the three algorithms is
non-decreasing by score. -/
theorem C6_sortedness (players qplayers : List Player) (s : VectorPlayerStream)
    (k : Nat) :
    List.Sorted levelLe (Offline.heapRank players).1.top_ ∧
    List.Sorted levelLe (Offline.quickSelectRank qplayers).1.top_ ∧
    List.Sorted levelLe (Online.rankIncoming s k).top_ := by
  refine ⟨?_, (quickSelectRank_spec qplayers).2.2.2.2.1, ?_⟩
  · show List.Sorted levelLe (sortP _)
    exact List.Pairwise.imp (fun h => pLe_levelLe h) (sortP_sorted _)
  · show List.Sorted levelLe (sortP _)
    exact List.Pairwise.imp (fun h => pLe_levelLe h) (sortP_sorted _)

/-- C7: for every stream and positive reporting interval, the cutoff
trace of rankIncoming has strictly increasing keys and, in that order,
non-decreasing values. -/
theorem C7_cutoff_monotonicity (s : VectorPlayerStream) (k : Nat) (hk : 0 < k) :
    List.Pairwise (fun a b : Nat × Nat => a.1 < b.1 ∧ a.2 ≤ b.2)
      (Online.rankIncoming s k).cutoffs_ := by
  obtain ⟨ps, idx⟩ := s
  have hres := rankLoop_inv k hk (ps.length - idx) ps idx 0 [] [] [] rfl (rankInv_init k)
  exact hres.hpair

theorem C7_witness :
    0 < 1 ∧
    List.Pairwise (fun a b : Nat × Nat => a.1 < b.1 ∧ a.2 ≤ b.2)
      (Online.rankIncoming (VectorPlayerStream.ofVector
        [⟨[], 2⟩, ⟨[], 1⟩, ⟨[], 3⟩]) 1).cutoffs_ :=
  ⟨by decide, C7_cutoff_monotonicity (VectorPlayerStream.ofVector
    [⟨[], 2⟩, ⟨[], 1⟩, ⟨[], 3⟩]) 1 (by decide)⟩

/-- C8: nextPlayer fails with the exhaustion error exactly when
remaining() is 0; with remaining() positive it returns a player and a
stream whose remaining() is one less. -/
theorem C8_nextPlayer_exhaustion (s : VectorPlayerStream) :
    (s.remaining = 0 ↔ ∃ e, s.nextPlayer = Except.error e) ∧
    (0 < s.remaining → ∃ p s2, s.nextPlayer = Except.ok (p, s2) ∧
      s2.remaining + 1 = s.remaining) := by
  obtain ⟨ps, idx⟩ := s
  have hrem : (⟨ps, idx⟩ : VectorPlayerStream).remaining = ps.length - idx := rfl
  constructor
  · constructor
    · intro h0
      refine ⟨"Out of Bounds.", ?_⟩
      rw [VectorPlayerStream.nextPlayer]
      rw [if_pos]
      show idx ≥ ps.length
      rw [hrem] at h0
      omega
    · rintro ⟨e, he⟩
      rw [VectorPlayerStream.nextPlayer] at he
      rw [hrem]
      by_cases hc : idx ≥ ps.length
      · omega
      · rw [if_neg hc] at he
        exact absurd he (by simp)
  · intro hpos
    rw [hrem] at hpos
    refine ⟨nth ps idx, ⟨ps, idx + 1⟩, ?_, ?_⟩
    · rw [VectorPlayerStream.nextPlayer]
      exact if_neg (by
        show ¬ (idx ≥ ps.length)
        omega)
    · show (ps.length - (idx + 1)) + 1 = ps.length - idx
      omega

theorem C8_witness :
    0 < (VectorPlayerStream.ofVector [⟨[], 5⟩]).remaining ∧
    (∃ p s2, (VectorPlayerStream.ofVector [⟨[], 5⟩]).nextPlayer =
        Except.ok (p, s2) ∧
      s2.remaining + 1 = (VectorPlayerStream.ofVector [⟨[], 5⟩]).remaining) :=
  ⟨by decide, (C8_nextPlayer_exhaustion (VectorPlayerStream.ofVector [⟨[], 5⟩])).2
    (by decide)⟩

/-- C9: the cutoffs mapping returned by both offline rankers is empty;
only the streaming ranker populates it. -/
theorem C9_offline_cutoffs_empty (players qplayers : List Player) :
    (Offline.heapRank players).1.cutoffs_ = [] ∧
    (Offline.quickSelectRank qplayers).1.cutoffs_ = [] :=
  ⟨rfl, rfl⟩

/-- C10: both offline rankers only rearrange the input vector in place:
after the call it holds exactly the same multiset of players. -/
theorem C10_in_place_permutation (players qplayers : List Player) :
    (Offline.heapRank players).2.Perm players ∧
    (Offline.quickSelectRank qplayers).2.Perm qplayers :=
  ⟨(heapRank_spec players).2.1, (quickSelectRank_spec qplayers).2.2.1⟩
